import Mathlib

/-!
# The Hack assembler of `Assembler.h`, embedded in Lean

The class `HackAssembler` reads a file of assembly lines twice.  The first pass records
label declarations in `symbolTable`, the second pass encodes every instruction line as a
word of `'0'`/`'1'` characters and writes it to the output file.

Conventions of the embedding:

* a `std::string` is the list of its characters (`Str`);
* `unordered_map<string, int> symbolTable` is an association list with pairwise distinct
  keys (`SymbolTable`), the member variables of the object are the record `Assembler`;
* the input file is the list of its lines as `getline` delivers them, the output file is
  the list of the words written to it, oldest first;
* `int` counters are natural numbers (they only count up from `0` and `16`, one step per
  source line), `size_t` arithmetic that is meant to wrap is written with `% 2 ^ 64`;
* an uncaught C++ exception (`std::out_of_range` from `std::stoi` or `substr`) ends the
  program: a function that can throw returns an `Option`, `none` being the throw.
-/

namespace HackAssembler

/-! ## Strings and characters -/

/-- A `std::string`. -/
abbrev Str := List Char

/-- The function `isspace` of `<cctype>` in the "C" locale: space, `\t`, `\n`, `\v`, `\f`, `\r`. -/
def isspace (c : Char) : Bool :=
  c = ' ' || c = '\t' || c = '\n' || c = '\x0b' || c = '\x0c' || c = '\r'

/-- The function `isdigit` of `<cctype>`: the ten characters `'0'` to `'9'`. -/
def isdigit (c : Char) : Bool :=
  decide (48 ≤ c.toNat) && decide (c.toNat ≤ 57)

/-- The value `string::npos`, the largest `size_t`. -/
def npos : Nat := 2 ^ 64 - 1

/-- The call `line.find(c)` for a one-character needle: the index of the first
occurrence, `npos` when there is none. -/
def find (line : Str) (c : Char) : Nat :=
  if c ∈ line then line.indexOf c else npos

/-- The call `s.substr(pos, count)` at a position `pos ≤ s.size()` (every call of the
program is at such a position, apart from `substr(1)` on an empty line, which
`handleAInstruction` treats on its own). -/
def substr (s : Str) (pos count : Nat) : Str :=
  (s.drop pos).take count

/-- The element `s[0]` of a `std::string`: the terminating `'\0'` when `s` is empty. -/
def front (s : Str) : Char := s.headD '\x00'

/-- The call `s.back()` on a non-empty string (`'\0'` stands in for the empty one, on
which the program never calls it). -/
def back (s : Str) : Char := s.getLastD '\x00'

/-- The call `std::to_string(i)` for a non-negative `int`: the decimal numeral. -/
def to_string (i : Nat) : Str := Nat.toDigits 10 i

/-- The largest `int`. -/
def INT_MAX : Nat := 2147483647

/-- The value of a run of decimal digits, most significant first. -/
def digitsValue (ds : Str) : Nat :=
  ds.foldl (fun v c => 10 * v + (c.toNat - 48)) 0

/-- The call `std::stoi(s)` on a string whose first character is a decimal digit, the
only way the program calls it (behind `isdigit(symbol[0])`): there is no white space or
sign to skip, the conversion reads the leading run of digits and ignores what follows,
and `std::out_of_range` is thrown (`none`) when the value is not an `int`.  On a string
without a leading digit, which the program never passes, the model returns `none`. -/
def stoi (s : Str) : Option Nat :=
  let ds := s.takeWhile isdigit
  if ds = [] then none
  else if digitsValue ds ≤ INT_MAX then some (digitsValue ds)
  else none

/-- The characters of `bitset<w>(val).to_string()`: the `w` low bits of `val`, most
significant first. -/
def bitset : Nat → Nat → Str
  | 0, _ => []
  | w + 1, val => bitset w (val / 2) ++ [if val % 2 = 1 then '1' else '0']

/-! ## The symbol table -/

/-- The map `unordered_map<string, int>`: pairs with pairwise distinct keys. -/
abbrev SymbolTable := List (Str × Nat)

/-- The lookup `symbolTable.find(name)`: the mapped value, `none` for `end()`. -/
def SymbolTable.find : SymbolTable → Str → Option Nat
  | [], _ => none
  | (k, v) :: rest, name => if k = name then some v else SymbolTable.find rest name

/-- The assignment `symbolTable[name] = value`: overwrites the value of a present key,
adds the pair otherwise. -/
def SymbolTable.assign : SymbolTable → Str → Nat → SymbolTable
  | [], name, value => [(name, value)]
  | (k, v) :: rest, name, value =>
    if k = name then (k, value) :: rest else (k, v) :: SymbolTable.assign rest name value

/-- The member variables `symbolTable` and `nextAvailableAddress` of a `HackAssembler`. -/
structure Assembler where
  symbolTable : SymbolTable
  nextAvailableAddress : Nat
  deriving DecidableEq

/-- The loop `for (int i = 0; i < 16; i++) symbolTable["R" + to_string(i)] = i;`, from
`i` on, `n` rounds. -/
def registerLoop (symbolTable : SymbolTable) (i : Nat) : Nat → SymbolTable
  | 0 => symbolTable
  | n + 1 => registerLoop (symbolTable.assign ('R' :: to_string i) i) (i + 1) n

/-- The function `initializeSymbolTable`, run on the empty map. -/
def initializeSymbolTable (symbolTable : SymbolTable) : SymbolTable :=
  let t := symbolTable.assign "SP".toList 0
  let t := t.assign "LCL".toList 1
  let t := t.assign "ARG".toList 2
  let t := t.assign "THIS".toList 3
  let t := t.assign "THAT".toList 4
  let t := registerLoop t 0 16
  let t := t.assign "SCREEN".toList 16384
  t.assign "KBD".toList 24576

/-- The constructor: an empty map filled by `initializeSymbolTable`, and the member
initialiser `nextAvailableAddress = 16`. -/
def construct : Assembler :=
  { symbolTable := initializeSymbolTable [], nextAvailableAddress := 16 }

/-! ## The line normaliser -/

/-- The loop of `strip` over the characters of the line.  The statement
`if (c == '/') inComment == true;` is a comparison whose value is discarded: it has no
effect, and `inComment` goes to the next round as it came. -/
def stripLoop (inComment : Bool) (result : Str) : Str → Str
  | [] => result
  | c :: rest =>
    let result := if !inComment && !isspace c then result ++ [c] else result
    stripLoop inComment result rest

/-- The function `strip`. -/
def strip (line : Str) : Str := stripLoop false [] line

/-! ## The first pass -/

/-- The test `line.empty() || line[0] == '/'` of both passes. -/
def isSkipped (line : Str) : Bool := line.isEmpty || front line = '/'

/-- The test `line[0] == '(' && line.back() == ')'` of both passes. -/
def isLabel (line : Str) : Bool := front line = '(' && back line = ')'

/-- The loop of `firstPass` over the lines of the input file. -/
def firstPassLoop (symbolTable : SymbolTable) (lineNumber : Nat) : List Str → SymbolTable
  | [] => symbolTable
  | raw :: rest =>
    let line := strip raw
    if isSkipped line then firstPassLoop symbolTable lineNumber rest
    else if isLabel line then
      let label := substr line 1 (line.length - 2)
      firstPassLoop (symbolTable.assign label lineNumber) lineNumber rest
    else firstPassLoop symbolTable (lineNumber + 1) rest

/-- The function `firstPass` on an input file that opens. -/
def firstPass (a : Assembler) (lines : List Str) : Assembler :=
  { a with symbolTable := firstPassLoop a.symbolTable 0 lines }

/-! ## The two encoders -/

/-- The function `handleAInstruction`: the word and the assembler afterwards, `none` when
`substr(1)` or `stoi` throws.  The read `symbolTable[symbol]` is at a key that is present
by then (`getD 0` is the value `operator[]` would insert for an absent one). -/
def handleAInstruction (a : Assembler) (line : Str) : Option (Str × Assembler) :=
  if line = [] then none
  else
    let symbol := line.drop 1
    if isdigit (front symbol) then
      match stoi symbol with
      | none => none
      | some address => some ('0' :: bitset 15 address, a)
    else
      let a1 : Assembler :=
        if a.symbolTable.find symbol = none then
          { symbolTable := a.symbolTable.assign symbol a.nextAvailableAddress,
            nextAvailableAddress := a.nextAvailableAddress + 1 }
        else a
      let address := (a1.symbolTable.find symbol).getD 0
      some ('0' :: bitset 15 address, a1)

/-- The initialiser list of `destTable`. -/
def destTable : List (Str × Str) :=
  [("".toList, "000".toList), ("M".toList, "001".toList), ("D".toList, "010".toList),
   ("MD".toList, "011".toList), ("A".toList, "100".toList), ("AM".toList, "101".toList),
   ("AD".toList, "110".toList), ("AMD".toList, "111".toList)]

/-- The initialiser list of `compTable`. -/
def compTable : List (Str × Str) :=
  [("0".toList, "0101010".toList), ("1".toList, "0111111".toList),
   ("-1".toList, "0111010".toList), ("D".toList, "0001100".toList),
   ("A".toList, "0110000".toList), ("!D".toList, "0001101".toList),
   ("!A".toList, "0110001".toList), ("-D".toList, "0001111".toList),
   ("-A".toList, "0110011".toList), ("D+1".toList, "0011111".toList),
   ("A+1".toList, "0110111".toList), ("D-1".toList, "0001110".toList),
   ("A-1".toList, "0110010".toList), ("D+A".toList, "0000010".toList),
   ("D-A".toList, "0010011".toList), ("A-D".toList, "0000111".toList),
   ("D&A".toList, "0000000".toList), ("D|A".toList, "0010101".toList),
   ("M".toList, "1110000".toList), ("!M".toList, "1110001".toList),
   ("-M".toList, "1110011".toList), ("M+1".toList, "1110111".toList),
   ("M-1".toList, "1110010".toList), ("D+M".toList, "1000010".toList),
   ("D-M".toList, "1010011".toList), ("M-D".toList, "1000111".toList),
   ("D&M".toList, "1000000".toList), ("D|M".toList, "1010101".toList)]

/-- The initialiser list of `jumpTable`. -/
def jumpTable : List (Str × Str) :=
  [("".toList, "000".toList), ("JGT".toList, "001".toList), ("JEQ".toList, "010".toList),
   ("JGE".toList, "011".toList), ("JLT".toList, "100".toList), ("JNE".toList, "101".toList),
   ("JLE".toList, "110".toList), ("JMP".toList, "111".toList)]

/-- The expression `table[bits]` on a freshly built `unordered_map<string, string>`: the
mapped string of a key, and for any other `bits` the empty string that `operator[]`
inserts (the map is a local variable, so the insertion is not seen again). -/
def tableAt : List (Str × Str) → Str → Str
  | [], _ => []
  | (k, v) :: rest, bits => if k = bits then v else tableAt rest bits

/-- The function `destBin`. -/
def destBin (bits : Str) : Str := tableAt destTable bits

/-- The function `compBin`. -/
def compBin (bits : Str) : Str := tableAt compTable bits

/-- The function `jumpBin`. -/
def jumpBin (bits : Str) : Str := tableAt jumpTable bits

/-- The local variables `dest`, `comp`, `jump` of `handleCInstruction` before the
`return`.  The count `scPos - eqPos - 1` is computed in `size_t`. -/
def fields (line : Str) : Str × Str × Str :=
  let eqPos := find line '='
  let scPos := find line ';'
  let dest := if eqPos ≠ npos then substr line 0 eqPos else []
  let comp :=
    if eqPos ≠ npos then substr line (eqPos + 1) ((scPos + 2 ^ 64 - eqPos - 1) % 2 ^ 64)
    else substr line 0 scPos
  let jump := if scPos ≠ npos then substr line (scPos + 1) npos else []
  (dest, comp, jump)

/-- The function `handleCInstruction`. -/
def handleCInstruction (line : Str) : Str :=
  match fields line with
  | (dest, comp, jump) => "111".toList ++ compBin comp ++ destBin dest ++ jumpBin jump

/-! ## The second pass and the driver -/

/-- What a run of `secondPass` leaves behind: the member variables, the words written to
the output file, and whether an uncaught exception ended the program. -/
structure Run where
  assembler : Assembler
  output : List Str
  aborted : Bool
  deriving DecidableEq

/-- The loop of `secondPass` over the lines of the input file; `output` holds the words
written so far (`outfile << binary << endl` writes and flushes each word at once). -/
def secondPassLoop (a : Assembler) (output : List Str) : List Str → Run
  | [] => { assembler := a, output := output, aborted := false }
  | raw :: rest =>
    let line := strip raw
    if isSkipped line || isLabel line then secondPassLoop a output rest
    else if front line = '@' then
      match handleAInstruction a line with
      | none => { assembler := a, output := output, aborted := true }
      | some (binary, a1) => secondPassLoop a1 (output ++ [binary]) rest
    else secondPassLoop a (output ++ [handleCInstruction line]) rest

/-- The function `secondPass` on an input file that opens. -/
def secondPass (a : Assembler) (lines : List Str) : Run :=
  secondPassLoop a [] lines

/-- The function `assemble`: first pass, then second pass, over the same lines. -/
def assemble (a : Assembler) (lines : List Str) : Run :=
  secondPass (firstPass a lines) lines

/-! ## Notions used in the statements -/

/-- The number that a string of `'0'`/`'1'` characters denotes, read as unsigned binary
with the most significant bit first. -/
def binaryValue (bits : Str) : Nat :=
  bits.foldl (fun v c => 2 * v + (if c = '1' then 1 else 0)) 0

/-- A word made of the characters `'0'` and `'1'` only. -/
def IsBinary (word : Str) : Prop := ∀ c ∈ word, c = '0' ∨ c = '1'

/-- The 23 names the architecture reserves. -/
def reservedNames : List Str :=
  ["SP".toList, "LCL".toList, "ARG".toList, "THIS".toList, "THAT".toList,
   "R0".toList, "R1".toList, "R2".toList, "R3".toList, "R4".toList, "R5".toList,
   "R6".toList, "R7".toList, "R8".toList, "R9".toList, "R10".toList, "R11".toList,
   "R12".toList, "R13".toList, "R14".toList, "R15".toList, "SCREEN".toList, "KBD".toList]

/-- The compute line made of a destination, a computation and a jump: the destination
and `=` when the destination is not empty, the computation, and `;` and the jump when
the jump is not empty. -/
def composeLine (dest comp jump : Str) : Str :=
  (if dest = [] then [] else dest ++ ['=']) ++ comp ++ (if jump = [] then [] else ';' :: jump)

/-- The keys of one of the three code tables. -/
def keys (table : List (Str × Str)) : List Str := table.map Prod.fst

/-- A line that both passes take for an instruction: its normalised form is not empty,
does not begin with `/`, and is not a label declaration. -/
def isInstructionLine (raw : Str) : Bool :=
  !(isSkipped (strip raw) || isLabel (strip raw))

/-- The number of instruction lines among the given lines. -/
def instructionCount (lines : List Str) : Nat :=
  (lines.filter isInstructionLine).length

/-- The name that `firstPass` takes from a label declaration: the line without its
first and its last character. -/
def labelOf (line : Str) : Str := substr line 1 (line.length - 2)

/-- The names declared as labels by the given lines, in source order. -/
def declaredLabels (lines : List Str) : List Str :=
  (lines.filter (fun raw => !isSkipped (strip raw) && isLabel (strip raw))).map
    (fun raw => labelOf (strip raw))

/-- The symbolic operands of the address-load lines among the given lines, in source
order: the text after `@` when its first character is not a decimal digit. -/
def symbolicOperands (lines : List Str) : List Str :=
  ((lines.filter (fun raw => isInstructionLine raw && decide (front (strip raw) = '@'))).map
    (fun raw => (strip raw).drop 1)).filter (fun v => !isdigit (front v))

/-- One step of `firstOccurrences`. -/
def addNew (seen : List Str) (v : Str) : List Str :=
  if v ∈ seen then seen else seen ++ [v]

/-- The distinct elements of a list in the order of their first occurrence. -/
def firstOccurrences (vs : List Str) : List Str := vs.foldl addNew []

/-- The variables of a program: the distinct symbolic operands that are neither reserved
names nor declared labels, in the order of their first appearance. -/
def programVariables (lines : List Str) : List Str :=
  firstOccurrences ((symbolicOperands lines).filter
    (fun v => decide (v ∉ reservedNames) && decide (v ∉ declaredLabels lines)))

/-- The entries of the given names with consecutive addresses from `base` on. -/
def numbered : Nat → List Str → SymbolTable
  | _, [] => []
  | base, v :: vs => (v, base) :: numbered (base + 1) vs

/-- The mnemonic with every register letter `A` replaced by `M`. -/
def replaceAM (bits : Str) : Str := bits.map (fun c => if c = 'A' then 'M' else c)

/-- The text of a line before the first occurrence of the character `c` (the whole line
when `c` does not occur). -/
def textBefore (c : Char) (line : Str) : Str := line.takeWhile (fun x => x != c)

/-- The text of a line after the first occurrence of the character `c` (empty when `c`
does not occur). -/
def textAfter (c : Char) (line : Str) : Str := (line.dropWhile (fun x => x != c)).drop 1

/-- The destination of a compute line as the specification describes it: the text before
the first `=`, empty when there is no `=`. -/
def specDest (line : Str) : Str := if '=' ∈ line then textBefore '=' line else []

/-- The computation of a compute line as the specification describes it: the text after
the first `=`, or from the start of the line when there is no `=`, up to but excluding the
first `;`, or to the end of the line when there is no `;`. -/
def specComp (line : Str) : Str :=
  textBefore ';' (if '=' ∈ line then textAfter '=' line else line)

/-- The jump of a compute line as the specification describes it: the text after the
first `;`, empty when there is no `;`. -/
def specJump (line : Str) : Str := if ';' ∈ line then textAfter ';' line else []

/-- The text of a raw line before its first comment marker `//` (the whole line when it
holds no marker). -/
def beforeComment : Str → Str
  | [] => []
  | c :: rest => if c = '/' ∧ rest.head? = some '/' then [] else c :: beforeComment rest

/-- The normal form of a raw line as the specification mandates it: the white space is
removed, and so is everything from the first comment marker `//` on. -/
def specStrip (raw : Str) : Str := strip (beforeComment raw)

/-- The raw line has no comment after other text: it holds no comment marker, or nothing
but white space stands before its first comment marker. -/
def noTrailingComment (raw : Str) : Bool :=
  decide (beforeComment raw = raw) || (specStrip raw).isEmpty

/-- The source lines with their comments cut off.  The notions of a statement that are
taken on these lines (instruction lines, declared labels, variables) are the ones of the
specification: they are read off `specStrip`. -/
def uncommented (lines : List Str) : List Str := lines.map beforeComment

/-! ## Characters, numerals and bit strings -/

theorem binaryValue_snoc (bits : Str) (c : Char) :
    binaryValue (bits ++ [c]) = 2 * binaryValue bits + (if c = '1' then 1 else 0) := by
  simp [binaryValue, List.foldl_append]

theorem bitset_length (w val : Nat) : (bitset w val).length = w := by
  induction w generalizing val with
  | zero => rfl
  | succ w ih => simp [bitset, ih]

theorem bitset_isBinary (w val : Nat) : IsBinary (bitset w val) := by
  induction w generalizing val with
  | zero => intro c hc; simp [bitset] at hc
  | succ w ih =>
    intro c hc
    simp only [bitset, List.mem_append, List.mem_singleton] at hc
    rcases hc with hc | hc
    · exact ih _ c hc
    · subst hc
      split <;> simp

theorem binaryValue_bitset (w val : Nat) : binaryValue (bitset w val) = val % 2 ^ w := by
  induction w generalizing val with
  | zero => simp [bitset, binaryValue, Nat.mod_one]
  | succ w ih =>
    rw [bitset, binaryValue_snoc, ih, Nat.pow_succ, Nat.mul_comm (2 ^ w) 2, Nat.mod_mul]
    have h2 : val % 2 = 0 ∨ val % 2 = 1 := by omega
    rcases h2 with h | h
    · rw [h]; simp
    · rw [h]; simp; omega

theorem digitChar_isdigit (d : Nat) (h : d < 10) :
    isdigit (Nat.digitChar d) = true ∧ (Nat.digitChar d).toNat - 48 = d := by
  interval_cases d <;> exact ⟨by decide, by decide⟩

theorem digitsValue_append (xs ys : Str) :
    digitsValue (xs ++ ys)
      = ys.foldl (fun v c => 10 * v + (c.toNat - 48)) (digitsValue xs) := by
  simp [digitsValue, List.foldl_append]

/-- With enough fuel, `Nat.toDigitsCore 10` puts in front of the accumulator a non-empty
run of digit characters whose value is the number. -/
theorem toDigitsCore_run : ∀ (fuel n : Nat) (acc : Str), n < fuel →
    ∃ run : Str, Nat.toDigitsCore 10 fuel n acc = run ++ acc ∧ run ≠ [] ∧
      (∀ c ∈ run, isdigit c = true) ∧ digitsValue run = n := by
  intro fuel
  induction fuel with
  | zero => intro n acc h; omega
  | succ fuel ih =>
    intro n acc h
    have hd := digitChar_isdigit (n % 10) (Nat.mod_lt _ (by norm_num))
    unfold Nat.toDigitsCore
    by_cases hq : n / 10 = 0
    · refine ⟨[Nat.digitChar (n % 10)], by simp [hq], by simp, ?_, ?_⟩
      · intro c hc
        rw [List.mem_singleton] at hc
        rw [hc]; exact hd.1
      · simp only [digitsValue, List.foldl_cons, List.foldl_nil, hd.2]
        omega
    · obtain ⟨run, hrun, -, hall, hval⟩ :=
        ih (n / 10) (Nat.digitChar (n % 10) :: acc) (by omega)
      refine ⟨run ++ [Nat.digitChar (n % 10)], by simp [hq, hrun], by simp, ?_, ?_⟩
      · intro c hc
        rcases List.mem_append.1 hc with hc | hc
        · exact hall c hc
        · rw [List.mem_singleton] at hc
          rw [hc]; exact hd.1
      · rw [digitsValue_append, hval]
        simp only [List.foldl_cons, List.foldl_nil, hd.2]
        omega

theorem to_string_spec (n : Nat) :
    to_string n ≠ [] ∧ (∀ c ∈ to_string n, isdigit c = true) ∧ digitsValue (to_string n) = n := by
  obtain ⟨run, hrun, hne, hall, hval⟩ := toDigitsCore_run (n + 1) n [] (Nat.lt_succ_self n)
  have h : to_string n = run := by simpa [to_string, Nat.toDigits] using hrun
  rw [h]
  exact ⟨hne, hall, hval⟩

theorem takeWhile_of_all (p : Char → Bool) (s : Str) (h : ∀ c ∈ s, p c = true) :
    s.takeWhile p = s := by
  induction s with
  | nil => rfl
  | cons c s ih =>
    have hc : p c = true := h c (List.mem_cons_self _ _)
    rw [List.takeWhile_cons, hc]
    simp only [if_true]
    rw [ih (fun d hd => h d (List.mem_cons_of_mem _ hd))]

theorem stoi_to_string (n : Nat) (h : n ≤ INT_MAX) : stoi (to_string n) = some n := by
  obtain ⟨hne, hall, hval⟩ := to_string_spec n
  simp only [stoi, takeWhile_of_all isdigit _ hall, hval, if_neg hne, if_pos h]

theorem front_to_string (n : Nat) : isdigit (front (to_string n)) = true := by
  obtain ⟨hne, hall, -⟩ := to_string_spec n
  cases hs : to_string n with
  | nil => exact absurd hs hne
  | cons c s =>
    rw [hs] at hall
    exact hall c (List.mem_cons_self _ _)

/-! ## The symbol table -/

theorem find_ne_none_iff (t : SymbolTable) (name : Str) :
    t.find name ≠ none ↔ name ∈ t.map Prod.fst := by
  induction t with
  | nil => simp [SymbolTable.find]
  | cons p t ih =>
    obtain ⟨k, v⟩ := p
    by_cases hk : k = name
    · simp [SymbolTable.find, hk]
    · have hk2 : ¬ name = k := fun h => hk h.symm
      simp [SymbolTable.find, hk, hk2, ih]

/-! ## Reserved symbols -/

/-- C10.  Right after construction the symbol table maps `SP`, `LCL`, `ARG`, `THIS`,
`THAT` to 0..4, `Ri` to `i` for every `i` in 0..15, `SCREEN` to 16384 and `KBD` to 24576;
a name has an entry exactly when it is one of these 23 names, the table has 23 entries,
and the next variable address is 16. -/
theorem reserved_symbols :
    construct.symbolTable.find "SP".toList = some 0 ∧
    construct.symbolTable.find "LCL".toList = some 1 ∧
    construct.symbolTable.find "ARG".toList = some 2 ∧
    construct.symbolTable.find "THIS".toList = some 3 ∧
    construct.symbolTable.find "THAT".toList = some 4 ∧
    (∀ i : Fin 16, construct.symbolTable.find ('R' :: to_string i.val) = some i.val) ∧
    construct.symbolTable.find "SCREEN".toList = some 16384 ∧
    construct.symbolTable.find "KBD".toList = some 24576 ∧
    (∀ name : Str, construct.symbolTable.find name ≠ none ↔ name ∈ reservedNames) ∧
    construct.symbolTable.length = 23 ∧
    construct.nextAvailableAddress = 16 := by
  refine ⟨by decide, by decide, by decide, by decide, by decide, by decide, by decide,
    by decide, ?_, by decide, rfl⟩
  intro name
  rw [find_ne_none_iff]
  have h : construct.symbolTable.map Prod.fst = reservedNames := by decide
  rw [h]

/-! ## Address literals -/

/-- C4.  For `0 ≤ n ≤ 32767`, `handleAInstruction` on the line `@n` (with `n` in
decimal) returns a word of 16 characters `'0'`/`'1'` that starts with `'0'` and whose
other 15 characters, read as unsigned binary most significant bit first, are `n`; the
assembler is left as it was. -/
theorem address_literal_round_trip (a : Assembler) (n : Nat) (h : n ≤ 32767) :
    ∃ word : Str, handleAInstruction a ('@' :: to_string n) = some (word, a) ∧
      word.length = 16 ∧ IsBinary word ∧ word.head? = some '0' ∧
      binaryValue (word.drop 1) = n := by
  refine ⟨'0' :: bitset 15 n, ?_, ?_, ?_, rfl, ?_⟩
  · have hs := stoi_to_string n (by unfold INT_MAX; omega)
    simp [handleAInstruction, front_to_string, hs]
  · simp [bitset_length]
  · intro c hc
    rcases List.mem_cons.1 hc with hc | hc
    · exact Or.inl hc
    · exact bitset_isBinary 15 n c hc
  · simp only [List.drop_succ_cons, List.drop_zero, binaryValue_bitset]
    exact Nat.mod_eq_of_lt (by omega)

theorem address_literal_round_trip_witness :
    ∃ word : Str, handleAInstruction construct ('@' :: to_string 21845) = some (word, construct) ∧
      word.length = 16 ∧ IsBinary word ∧ word.head? = some '0' ∧
      binaryValue (word.drop 1) = 21845 :=
  address_literal_round_trip construct 21845 (by decide)

/-! ## Field extraction and the code tables -/

theorem find_of_not_mem (line : Str) (c : Char) (h : c ∉ line) : find line c = npos := by
  simp [find, h]

theorem find_append_cons (pre post : Str) (c : Char) (h : c ∉ pre) :
    find (pre ++ c :: post) c = pre.length := by
  have hm : c ∈ pre ++ c :: post := by simp
  rw [find, if_pos hm]
  induction pre with
  | nil => simp
  | cons x pre ih =>
    have hx : x ≠ c := fun e => h (by simp [e])
    have hp : c ∉ pre := fun e => h (by simp [e])
    have := ih hp (by simp)
    simp [List.indexOf_cons_ne _ hx, this]

theorem substr_zero_append (xs ys : Str) : substr (xs ++ ys) 0 xs.length = xs := by
  simp [substr]

theorem substr_all (xs : Str) (n : Nat) (h : xs.length ≤ n) : substr xs 0 n = xs := by
  simp [substr, List.take_of_length_le h]

theorem substr_append_cons (xs ys : Str) (c : Char) (n : Nat) (h : ys.length ≤ n) :
    substr (xs ++ c :: ys) (xs.length + 1) n = ys := by
  have : List.drop (xs.length + 1) (xs ++ c :: ys) = ys := by
    rw [show xs ++ c :: ys = (xs ++ [c]) ++ ys by simp]
    exact List.drop_left' (by simp)
  simp [substr, this, List.take_of_length_le h]

theorem substr_middle (xs ys zs : Str) (c : Char) :
    substr (xs ++ c :: (ys ++ zs)) (xs.length + 1) ys.length = ys := by
  have : List.drop (xs.length + 1) (xs ++ c :: (ys ++ zs)) = ys ++ zs := by
    rw [show xs ++ c :: (ys ++ zs) = (xs ++ [c]) ++ (ys ++ zs) by simp]
    exact List.drop_left' (by simp)
  simp [substr, this]

theorem fields_composeLine (dest comp jump : Str)
    (hd : '=' ∉ dest ∧ ';' ∉ dest) (hc : '=' ∉ comp ∧ ';' ∉ comp) (hj : '=' ∉ jump)
    (hlen : dest.length + comp.length + jump.length + 2 < 2 ^ 64) :
    fields (composeLine dest comp jump) = (dest, comp, jump) := by
  have hn : npos = 2 ^ 64 - 1 := rfl
  by_cases hde : dest = [] <;> by_cases hje : jump = []
  · subst hde; subst hje
    have hline : composeLine [] comp [] = comp := by simp [composeLine]
    have h1 : find comp '=' = npos := find_of_not_mem _ _ hc.1
    have h2 : find comp ';' = npos := find_of_not_mem _ _ hc.2
    simp only [List.length_nil] at hlen
    rw [hline]; unfold fields
    simp only [h1, h2, ne_eq, not_true_eq_false, if_false]
    rw [substr_all _ _ (by omega)]
  · subst hde
    have hline : composeLine [] comp jump = comp ++ ';' :: jump := by simp [composeLine, hje]
    have h1 : find (comp ++ ';' :: jump) '=' = npos :=
      find_of_not_mem _ _ (by simp [hc.1, hj])
    have h2 : find (comp ++ ';' :: jump) ';' = comp.length := find_append_cons _ _ _ hc.2
    have h3 : comp.length ≠ npos := by omega
    rw [hline]; unfold fields
    simp only [h1, h2, ne_eq, not_true_eq_false, if_false, if_pos h3]
    rw [substr_zero_append, substr_append_cons _ _ _ _ (by omega)]
  · subst hje
    have hline : composeLine dest comp [] = dest ++ '=' :: comp := by simp [composeLine, hde]
    have h1 : find (dest ++ '=' :: comp) '=' = dest.length := find_append_cons _ _ _ hd.1
    have h2 : find (dest ++ '=' :: comp) ';' = npos :=
      find_of_not_mem _ _ (by simp [hd.2, hc.2])
    have h3 : dest.length ≠ npos := by omega
    simp only [List.length_nil] at hlen
    have h5 : (npos + 2 ^ 64 - dest.length - 1) % 2 ^ 64 = 2 ^ 64 - 2 - dest.length := by
      rw [hn, show 2 ^ 64 - 1 + 2 ^ 64 - dest.length - 1
        = (2 ^ 64 - 2 - dest.length) + 2 ^ 64 by omega, Nat.add_mod_right]
      exact Nat.mod_eq_of_lt (by omega)
    rw [hline]; unfold fields
    simp only [h1, h2, ne_eq, not_true_eq_false, if_false, if_pos h3, h5]
    rw [substr_zero_append, substr_append_cons _ _ _ _ (by omega)]
  · have hline : composeLine dest comp jump = dest ++ '=' :: (comp ++ ';' :: jump) := by
      simp [composeLine, hde, hje]
    have h1 : find (dest ++ '=' :: (comp ++ ';' :: jump)) '=' = dest.length :=
      find_append_cons _ _ _ hd.1
    have h2 : find (dest ++ '=' :: (comp ++ ';' :: jump)) ';' = (dest ++ '=' :: comp).length := by
      have := find_append_cons (dest ++ '=' :: comp) jump ';' (by simp [hd.2, hc.2])
      simpa using this
    have hl : (dest ++ '=' :: comp).length = dest.length + comp.length + 1 := by
      simp; omega
    have h3 : dest.length ≠ npos := by omega
    have h4 : (dest ++ '=' :: comp).length ≠ npos := by omega
    have h5 : ((dest ++ '=' :: comp).length + 2 ^ 64 - dest.length - 1) % 2 ^ 64
        = comp.length := by
      rw [show (dest ++ '=' :: comp).length + 2 ^ 64 - dest.length - 1
        = comp.length + 2 ^ 64 by omega, Nat.add_mod_right]
      exact Nat.mod_eq_of_lt (by omega)
    have h6 : substr (dest ++ '=' :: (comp ++ ';' :: jump)) ((dest ++ '=' :: comp).length + 1)
        npos = jump := by
      have := substr_append_cons (dest ++ '=' :: comp) jump ';' npos (by omega)
      simpa using this
    rw [hline]; unfold fields
    simp only [h1, h2, ne_eq, if_pos h3, if_pos h4, h5, h6]
    rw [substr_zero_append, substr_middle]

theorem tableAt_of_not_key (table : List (Str × Str)) (bits : Str) (h : bits ∉ keys table) :
    tableAt table bits = [] := by
  induction table with
  | nil => rfl
  | cons p table ih =>
    obtain ⟨k, v⟩ := p
    simp only [keys, List.map_cons, List.mem_cons, not_or] at h
    have hk : ¬ k = bits := fun e => h.1 e.symm
    simp only [tableAt, if_neg hk]
    exact ih h.2

theorem tableAt_mem_of_key (table : List (Str × Str)) (bits : Str) (h : bits ∈ keys table) :
    (bits, tableAt table bits) ∈ table := by
  induction table with
  | nil => simp [keys] at h
  | cons p table ih =>
    obtain ⟨k, v⟩ := p
    by_cases hk : k = bits
    · simp [tableAt, hk]
    · have hk2 : ¬ bits = k := fun e => hk e.symm
      simp only [keys, List.map_cons, List.mem_cons, hk2, false_or] at h
      simp only [tableAt, if_neg hk]
      exact List.mem_cons_of_mem _ (ih h)

theorem handleCInstruction_eq (line : Str) :
    handleCInstruction line
      = "111".toList ++ compBin (fields line).2.1 ++ destBin (fields line).1
          ++ jumpBin (fields line).2.2 := rfl

/-- C3.  For every entry `d` of the destination table, `c` of the computation table and
`j` of the jump table (a key with its code; the 8, 28 and 8 keys are pairwise distinct),
`handleCInstruction` encodes the line `[d=]c[;j]` as the word of 16 characters `"111"` +
the 7-character code of `c` + the 3-character code of `d` + the 3-character code of `j`,
and the destination and jump entries are among the pairs that the specification lists. -/
theorem compute_encoding (d c j : Str × Str)
    (hd : d ∈ destTable) (hc : c ∈ compTable) (hj : j ∈ jumpTable) :
    handleCInstruction (composeLine d.1 c.1 j.1) = "111".toList ++ c.2 ++ d.2 ++ j.2 ∧
    (handleCInstruction (composeLine d.1 c.1 j.1)).length = 16 ∧
    c.2.length = 7 ∧ d.2.length = 3 ∧ j.2.length = 3 ∧
    d ∈ [("".toList, "000".toList), ("M".toList, "001".toList), ("D".toList, "010".toList),
         ("MD".toList, "011".toList), ("A".toList, "100".toList), ("AM".toList, "101".toList),
         ("AD".toList, "110".toList), ("AMD".toList, "111".toList)] ∧
    j ∈ [("".toList, "000".toList), ("JGT".toList, "001".toList), ("JEQ".toList, "010".toList),
         ("JGE".toList, "011".toList), ("JLT".toList, "100".toList), ("JNE".toList, "101".toList),
         ("JLE".toList, "110".toList), ("JMP".toList, "111".toList)] ∧
    destTable.length = 8 ∧ compTable.length = 28 ∧ jumpTable.length = 8 ∧
    (keys destTable).Nodup ∧ (keys compTable).Nodup ∧ (keys jumpTable).Nodup := by
  have hD : ∀ p ∈ destTable, ('=' ∉ p.1 ∧ ';' ∉ p.1) ∧ p.1.length ≤ 3 ∧ destBin p.1 = p.2 ∧
      p.2.length = 3 := by decide
  have hC : ∀ p ∈ compTable, ('=' ∉ p.1 ∧ ';' ∉ p.1) ∧ p.1.length ≤ 3 ∧ compBin p.1 = p.2 ∧
      p.2.length = 7 := by decide
  have hJ : ∀ p ∈ jumpTable, '=' ∉ p.1 ∧ p.1.length ≤ 3 ∧ jumpBin p.1 = p.2 ∧
      p.2.length = 3 := by decide
  obtain ⟨hd1, hd2, hd3, hd4⟩ := hD d hd
  obtain ⟨hc1, hc2, hc3, hc4⟩ := hC c hc
  obtain ⟨hj1, hj2, hj3, hj4⟩ := hJ j hj
  have hf := fields_composeLine d.1 c.1 j.1 hd1 hc1 hj1 (by omega)
  have hw : handleCInstruction (composeLine d.1 c.1 j.1) = "111".toList ++ c.2 ++ d.2 ++ j.2 := by
    rw [handleCInstruction_eq, hf, hc3, hd3, hj3]
  refine ⟨hw, ?_, hc4, hd4, hj4, hd, hj, rfl, rfl, rfl, by decide, by decide, by decide⟩
  rw [hw]
  simp only [List.length_append, hc4, hd4, hj4]
  rfl

theorem compute_encoding_witness :
    handleCInstruction (composeLine "AM".toList "D|M".toList "JLE".toList)
      = "111".toList ++ "1010101".toList ++ "101".toList ++ "110".toList :=
  (compute_encoding ("AM".toList, "101".toList) ("D|M".toList, "1010101".toList)
    ("JLE".toList, "110".toList) (by decide) (by decide) (by decide)).1

/-! ## The normaliser, unknown mnemonics and literals -/

theorem stripLoop_eq (result line : Str) :
    stripLoop false result line = result ++ line.filter (fun c => !isspace c) := by
  induction line generalizing result with
  | nil => simp [stripLoop]
  | cons c line ih =>
    cases hc : isspace c <;> simp [stripLoop, hc, ih, List.filter_cons]

theorem strip_eq_filter (line : Str) : strip line = line.filter (fun c => !isspace c) := by
  simp [strip, stripLoop_eq]

/-- C8 (the code at the failing input).  On the line `D=A // note` the function `strip`
returns `D=A//note`, and on the comment line `// note` it returns `//note`: the white
space is gone, the comment marker and the comment text are still there. -/
theorem strip_keeps_comment :
    strip "D=A // note".toList = "D=A//note".toList ∧
    strip "// note".toList = "//note".toList := by
  decide

theorem destBin_length (bits : Str) :
    (destBin bits).length = if bits ∈ keys destTable then 3 else 0 := by
  by_cases h : bits ∈ keys destTable
  · have hall : ∀ p ∈ destTable, p.2.length = 3 := by decide
    rw [if_pos h]
    exact hall _ (tableAt_mem_of_key destTable bits h)
  · rw [if_neg h, destBin, tableAt_of_not_key _ _ h]; rfl

theorem compBin_length (bits : Str) :
    (compBin bits).length = if bits ∈ keys compTable then 7 else 0 := by
  by_cases h : bits ∈ keys compTable
  · have hall : ∀ p ∈ compTable, p.2.length = 7 := by decide
    rw [if_pos h]
    exact hall _ (tableAt_mem_of_key compTable bits h)
  · rw [if_neg h, compBin, tableAt_of_not_key _ _ h]; rfl

theorem jumpBin_length (bits : Str) :
    (jumpBin bits).length = if bits ∈ keys jumpTable then 3 else 0 := by
  by_cases h : bits ∈ keys jumpTable
  · have hall : ∀ p ∈ jumpTable, p.2.length = 3 := by decide
    rw [if_pos h]
    exact hall _ (tableAt_mem_of_key jumpTable bits h)
  · rw [if_neg h, jumpBin, tableAt_of_not_key _ _ h]; rfl

theorem handleCInstruction_length (line : Str) :
    (handleCInstruction line).length
      = 3 + (if (fields line).2.1 ∈ keys compTable then 7 else 0)
          + (if (fields line).1 ∈ keys destTable then 3 else 0)
          + (if (fields line).2.2 ∈ keys jumpTable then 3 else 0) := by
  rw [handleCInstruction_eq]
  simp only [List.length_append, compBin_length, destBin_length, jumpBin_length]
  rfl

/-- C5 (counterexample).  `D+2` is not a key of the computation table, and the line
`D=D+2` is encoded all the same: `handleCInstruction` returns the 9 characters
`111010000`, and the second pass writes them to the output and goes on without an error. -/
theorem unknown_mnemonic_accepted :
    "D+2".toList ∉ keys compTable ∧
    fields "D=D+2".toList = ("D".toList, "D+2".toList, "".toList) ∧
    handleCInstruction "D=D+2".toList = "111010000".toList ∧
    secondPass construct ["D=D+2".toList]
      = { assembler := construct, output := ["111010000".toList], aborted := false } := by
  decide

/-- C5 (amended).  When the destination, computation or jump field of a compute line is
not a key of its table, `handleCInstruction` still returns a word: `"111"` followed by
the codes of the three fields, where a field that is not a key has the empty string as
its code, so that the word has fewer than 16 characters. -/
theorem unknown_mnemonic_empty_code (line : Str)
    (h : (fields line).1 ∉ keys destTable ∨ (fields line).2.1 ∉ keys compTable ∨
      (fields line).2.2 ∉ keys jumpTable) :
    handleCInstruction line
      = "111".toList ++ compBin (fields line).2.1 ++ destBin (fields line).1
          ++ jumpBin (fields line).2.2 ∧
    ((fields line).1 ∉ keys destTable → destBin (fields line).1 = []) ∧
    ((fields line).2.1 ∉ keys compTable → compBin (fields line).2.1 = []) ∧
    ((fields line).2.2 ∉ keys jumpTable → jumpBin (fields line).2.2 = []) ∧
    (handleCInstruction line).length < 16 := by
  refine ⟨rfl, tableAt_of_not_key _ _, tableAt_of_not_key _ _, tableAt_of_not_key _ _, ?_⟩
  rw [handleCInstruction_length]
  rcases h with h | h | h
  · rw [if_neg h]; split <;> split <;> omega
  · rw [if_neg h]; split <;> split <;> omega
  · rw [if_neg h]; split <;> split <;> omega

theorem unknown_mnemonic_empty_code_witness :
    compBin (fields "D=D+2".toList).2.1 = [] ∧ (handleCInstruction "D=D+2".toList).length < 16 :=
  ⟨(unknown_mnemonic_empty_code "D=D+2".toList (Or.inr (Or.inl (by decide)))).2.2.1 (by decide),
   (unknown_mnemonic_empty_code "D=D+2".toList (Or.inr (Or.inl (by decide)))).2.2.2.2⟩

theorem takeWhile_ne_nil_of_front (symbol : Str) (h : isdigit (front symbol) = true) :
    symbol.takeWhile isdigit ≠ [] := by
  cases symbol with
  | nil => exact absurd h (by decide)
  | cons c s =>
    have hc : isdigit c = true := h
    simp [List.takeWhile_cons, hc]

/-- C6 (counterexample).  The operand `12abc` is not a numeral and `40000` exceeds 32767;
`handleAInstruction` succeeds on both, with the words of 12 and of 40000 - 32768 = 7232. -/
theorem invalid_literal_accepted :
    handleAInstruction construct "@12abc".toList
      = some ("0000000000001100".toList, construct) ∧
    handleAInstruction construct "@40000".toList
      = some ("0001110001000000".toList, construct) ∧
    binaryValue "001110001000000".toList = 7232 := by
  decide

/-- C6 (amended).  On an address-load line whose operand begins with a decimal digit,
`handleAInstruction` reads the value `v` of the leading run of decimal digits of the
operand and ignores what follows the run; it fails, producing no word, exactly when
`v > 2147483647`, and otherwise returns `'0'` followed by 15 characters that denote
`v mod 32768`, leaving the assembler as it was. -/
theorem literal_operand (a : Assembler) (symbol : Str) (h : isdigit (front symbol) = true) :
    handleAInstruction a ('@' :: symbol)
      = (if digitsValue (symbol.takeWhile isdigit) ≤ 2147483647 then
          some ('0' :: bitset 15 (digitsValue (symbol.takeWhile isdigit)), a)
        else none) ∧
    (bitset 15 (digitsValue (symbol.takeWhile isdigit))).length = 15 ∧
    binaryValue (bitset 15 (digitsValue (symbol.takeWhile isdigit)))
      = digitsValue (symbol.takeWhile isdigit) % 32768 := by
  refine ⟨?_, bitset_length _ _, binaryValue_bitset _ _⟩
  have hne := takeWhile_ne_nil_of_front symbol h
  by_cases hv : digitsValue (symbol.takeWhile isdigit) ≤ 2147483647
  · simp [handleAInstruction, h, stoi, hne, INT_MAX, hv]
  · simp [handleAInstruction, h, stoi, hne, INT_MAX, hv]

theorem literal_operand_witness :
    handleAInstruction construct ('@' :: "2147483648".toList) = none :=
  (literal_operand construct "2147483648".toList (by decide)).1.trans (by decide)

/-! ## The loop of the second pass -/

theorem instruction_test {raw : Str} (h : isInstructionLine raw = true) :
    (isSkipped (strip raw) || isLabel (strip raw)) = false := by
  unfold isInstructionLine at h
  revert h
  cases (isSkipped (strip raw) || isLabel (strip raw)) <;> simp

theorem secondPassLoop_skip (a : Assembler) (output : List Str) (raw : Str) (rest : List Str)
    (h : isInstructionLine raw = false) :
    secondPassLoop a output (raw :: rest) = secondPassLoop a output rest := by
  have hs : (isSkipped (strip raw) || isLabel (strip raw)) = true := by
    unfold isInstructionLine at h
    revert h
    cases (isSkipped (strip raw) || isLabel (strip raw)) <;> simp
  rw [secondPassLoop]
  simp only [hs, if_true]

theorem secondPassLoop_abort (a : Assembler) (output : List Str) (raw : Str) (rest : List Str)
    (h : isInstructionLine raw = true) (hat : front (strip raw) = '@')
    (hA : handleAInstruction a (strip raw) = none) :
    secondPassLoop a output (raw :: rest)
      = { assembler := a, output := output, aborted := true } := by
  rw [secondPassLoop]
  simp only [instruction_test h, Bool.false_eq_true, if_false, hat, if_true, hA]

theorem secondPassLoop_address (a : Assembler) (output : List Str) (raw : Str)
    (rest : List Str) (binary : Str) (a1 : Assembler)
    (h : isInstructionLine raw = true) (hat : front (strip raw) = '@')
    (hA : handleAInstruction a (strip raw) = some (binary, a1)) :
    secondPassLoop a output (raw :: rest) = secondPassLoop a1 (output ++ [binary]) rest := by
  rw [secondPassLoop]
  simp only [instruction_test h, Bool.false_eq_true, if_false, hat, if_true, hA]

theorem secondPassLoop_compute (a : Assembler) (output : List Str) (raw : Str)
    (rest : List Str) (h : isInstructionLine raw = true) (hat : front (strip raw) ≠ '@') :
    secondPassLoop a output (raw :: rest)
      = secondPassLoop a (output ++ [handleCInstruction (strip raw)]) rest := by
  rw [secondPassLoop]
  simp only [instruction_test h, Bool.false_eq_true, if_false, hat]

/-- The four ways in which the loop of the second pass treats a line. -/
theorem secondPassLoop_cases (a : Assembler) (output : List Str) (raw : Str) (rest : List Str) :
    (isInstructionLine raw = false ∧
      secondPassLoop a output (raw :: rest) = secondPassLoop a output rest) ∨
    (isInstructionLine raw = true ∧ front (strip raw) = '@' ∧
      handleAInstruction a (strip raw) = none ∧
      secondPassLoop a output (raw :: rest)
        = { assembler := a, output := output, aborted := true }) ∨
    (∃ binary a1, isInstructionLine raw = true ∧ front (strip raw) = '@' ∧
      handleAInstruction a (strip raw) = some (binary, a1) ∧
      secondPassLoop a output (raw :: rest) = secondPassLoop a1 (output ++ [binary]) rest) ∨
    (isInstructionLine raw = true ∧ front (strip raw) ≠ '@' ∧
      secondPassLoop a output (raw :: rest)
        = secondPassLoop a (output ++ [handleCInstruction (strip raw)]) rest) := by
  cases h : isInstructionLine raw with
  | false => exact Or.inl ⟨rfl, secondPassLoop_skip a output raw rest h⟩
  | true =>
    by_cases hat : front (strip raw) = '@'
    · cases hA : handleAInstruction a (strip raw) with
      | none => exact Or.inr (Or.inl ⟨rfl, hat, rfl, secondPassLoop_abort a output raw rest h hat hA⟩)
      | some p =>
        obtain ⟨binary, a1⟩ := p
        exact Or.inr (Or.inr (Or.inl ⟨binary, a1, rfl, hat, rfl,
          secondPassLoop_address a output raw rest binary a1 h hat hA⟩))
    · exact Or.inr (Or.inr (Or.inr ⟨rfl, hat, secondPassLoop_compute a output raw rest h hat⟩))

theorem instructionCount_cons (raw : Str) (rest : List Str) :
    instructionCount (raw :: rest)
      = (if isInstructionLine raw = true then 1 else 0) + instructionCount rest := by
  cases h : isInstructionLine raw
  · simp [instructionCount, List.filter_cons, h]
  · simp [instructionCount, List.filter_cons, h]; omega

theorem instructionCount_append (xs ys : List Str) :
    instructionCount (xs ++ ys) = instructionCount xs + instructionCount ys := by
  simp [instructionCount]

theorem secondPassLoop_output (a : Assembler) (output lines : List Str) :
    (secondPassLoop a output lines).assembler = (secondPassLoop a [] lines).assembler ∧
    (secondPassLoop a output lines).aborted = (secondPassLoop a [] lines).aborted ∧
    (secondPassLoop a output lines).output = output ++ (secondPassLoop a [] lines).output := by
  induction lines generalizing a output with
  | nil => simp [secondPassLoop]
  | cons raw rest ih =>
    rcases secondPassLoop_cases a output raw rest with ⟨hi, h⟩ | ⟨hi, hat, hA, h⟩ |
        ⟨binary, a1, hi, hat, hA, h⟩ | ⟨hi, hat, h⟩
    · rw [h, secondPassLoop_skip a [] raw rest hi]; exact ih a output
    · rw [h, secondPassLoop_abort a [] raw rest hi hat hA]; simp
    · rw [h, secondPassLoop_address a [] raw rest binary a1 hi hat hA]
      obtain ⟨e1, e2, e3⟩ := ih a1 (output ++ [binary])
      obtain ⟨f1, f2, f3⟩ := ih a1 ([] ++ [binary])
      rw [e1, e2, e3, f1, f2, f3]; simp
    · rw [h, secondPassLoop_compute a [] raw rest hi hat]
      obtain ⟨e1, e2, e3⟩ := ih a (output ++ [handleCInstruction (strip raw)])
      obtain ⟨f1, f2, f3⟩ := ih a ([] ++ [handleCInstruction (strip raw)])
      rw [e1, e2, e3, f1, f2, f3]; simp

theorem secondPassLoop_append (a : Assembler) (output xs ys : List Str) :
    secondPassLoop a output (xs ++ ys)
      = if (secondPassLoop a output xs).aborted = true then secondPassLoop a output xs
        else secondPassLoop (secondPassLoop a output xs).assembler
          (secondPassLoop a output xs).output ys := by
  induction xs generalizing a output with
  | nil => simp [secondPassLoop]
  | cons raw rest ih =>
    rw [List.cons_append]
    rcases secondPassLoop_cases a output raw rest with ⟨hi, h⟩ | ⟨hi, hat, hA, h⟩ |
        ⟨binary, a1, hi, hat, hA, h⟩ | ⟨hi, hat, h⟩
    · rw [h, secondPassLoop_skip a output raw (rest ++ ys) hi]; exact ih a output
    · rw [h, secondPassLoop_abort a output raw (rest ++ ys) hi hat hA]; simp
    · rw [h, secondPassLoop_address a output raw (rest ++ ys) binary a1 hi hat hA]
      exact ih a1 _
    · rw [h, secondPassLoop_compute a output raw (rest ++ ys) hi hat]
      exact ih a _

theorem secondPassLoop_length (a : Assembler) (output lines : List Str)
    (h : (secondPassLoop a output lines).aborted = false) :
    (secondPassLoop a output lines).output.length = output.length + instructionCount lines := by
  induction lines generalizing a output with
  | nil => simp [secondPassLoop, instructionCount]
  | cons raw rest ih =>
    rw [instructionCount_cons]
    rcases secondPassLoop_cases a output raw rest with ⟨hi, e⟩ | ⟨hi, hat, hA, e⟩ |
        ⟨binary, a1, hi, hat, hA, e⟩ | ⟨hi, hat, e⟩
    · rw [e] at h ⊢; rw [ih a output h, hi]; simp
    · rw [e] at h; simp at h
    · rw [e] at h ⊢; rw [ih a1 _ h, hi]; simp; omega
    · rw [e] at h ⊢; rw [ih a _ h, hi]; simp; omega

/-! ## The words of the second pass -/

theorem tableAt_isBinary (table : List (Str × Str)) (hall : ∀ p ∈ table, IsBinary p.2)
    (bits : Str) : IsBinary (tableAt table bits) := by
  by_cases h : bits ∈ keys table
  · exact hall _ (tableAt_mem_of_key table bits h)
  · rw [tableAt_of_not_key table bits h]
    intro c hc
    simp at hc

theorem handleCInstruction_isBinary (line : Str) : IsBinary (handleCInstruction line) := by
  have hD : ∀ p ∈ destTable, IsBinary p.2 := by unfold IsBinary; decide
  have hC : ∀ p ∈ compTable, IsBinary p.2 := by unfold IsBinary; decide
  have hJ : ∀ p ∈ jumpTable, IsBinary p.2 := by unfold IsBinary; decide
  rw [handleCInstruction_eq]
  intro c hc
  simp only [List.mem_append] at hc
  rcases hc with ((hc | hc) | hc) | hc
  · have h1 : ∀ c ∈ "111".toList, c = '0' ∨ c = '1' := by decide
    exact h1 c hc
  · exact tableAt_isBinary compTable hC _ c hc
  · exact tableAt_isBinary destTable hD _ c hc
  · exact tableAt_isBinary jumpTable hJ _ c hc

theorem getElem?_append_singleton (xs more : List Str) (word : Str) :
    (xs ++ [word] ++ more)[xs.length]? = some word := by
  rw [List.append_assoc, List.getElem?_append_right (Nat.le_refl _)]
  simp

theorem find_assign (t : SymbolTable) (k name : Str) (v : Nat) :
    (t.assign k v).find name = if k = name then some v else t.find name := by
  induction t with
  | nil => simp [SymbolTable.assign, SymbolTable.find]
  | cons p t ih =>
    obtain ⟨k0, v0⟩ := p
    by_cases h0 : k0 = k
    · subst h0
      by_cases h1 : k0 = name <;> simp [SymbolTable.assign, SymbolTable.find, h1]
    · by_cases h1 : k0 = name
      · have h2 : ¬ k = name := fun e => h0 (h1.trans e.symm)
        simp only [SymbolTable.assign, if_neg h0, SymbolTable.find, if_pos h1, if_neg h2]
      · simp only [SymbolTable.assign, if_neg h0, SymbolTable.find, if_neg h1, ih]

theorem assign_absent (t : SymbolTable) (k : Str) (v : Nat) (h : t.find k = none) :
    t.assign k v = t ++ [(k, v)] := by
  induction t with
  | nil => rfl
  | cons p t ih =>
    obtain ⟨k0, v0⟩ := p
    by_cases h0 : k0 = k
    · simp [SymbolTable.find, h0] at h
    · simp only [SymbolTable.find, if_neg h0] at h
      simp [SymbolTable.assign, h0, ih h]

/-! ## The first pass -/

theorem firstPassLoop_skip (t : SymbolTable) (n : Nat) (raw : Str) (rest : List Str)
    (h : isSkipped (strip raw) = true) :
    firstPassLoop t n (raw :: rest) = firstPassLoop t n rest := by
  rw [firstPassLoop]
  simp only [h, if_true]

theorem firstPassLoop_label (t : SymbolTable) (n : Nat) (raw : Str) (rest : List Str)
    (h : isSkipped (strip raw) = false) (hl : isLabel (strip raw) = true) :
    firstPassLoop t n (raw :: rest)
      = firstPassLoop (t.assign (labelOf (strip raw)) n) n rest := by
  rw [firstPassLoop]
  simp only [h, Bool.false_eq_true, if_false, hl, if_true, labelOf]

theorem firstPassLoop_instruction (t : SymbolTable) (n : Nat) (raw : Str) (rest : List Str)
    (h : isInstructionLine raw = true) :
    firstPassLoop t n (raw :: rest) = firstPassLoop t (n + 1) rest := by
  have hb := instruction_test h
  rw [Bool.or_eq_false_iff] at hb
  rw [firstPassLoop]
  simp only [hb.1, hb.2, Bool.false_eq_true, if_false]

/-- The three ways in which the loop of the first pass treats a line. -/
theorem line_cases (raw : Str) :
    (isSkipped (strip raw) = true ∧ isInstructionLine raw = false) ∨
    (isSkipped (strip raw) = false ∧ isLabel (strip raw) = true ∧
      isInstructionLine raw = false) ∨
    isInstructionLine raw = true := by
  unfold isInstructionLine
  cases isSkipped (strip raw) <;> cases isLabel (strip raw) <;> simp

theorem declaredLabels_cons (raw : Str) (rest : List Str) :
    declaredLabels (raw :: rest)
      = (if isSkipped (strip raw) = false ∧ isLabel (strip raw) = true
          then [labelOf (strip raw)] else []) ++ declaredLabels rest := by
  cases hs : isSkipped (strip raw) <;> cases hl : isLabel (strip raw) <;>
    simp [declaredLabels, List.filter_cons, hs, hl]

theorem firstPassLoop_find_none (t : SymbolTable) (n : Nat) (xs : List Str) (name : Str) :
    (firstPassLoop t n xs).find name = none ↔ t.find name = none ∧ name ∉ declaredLabels xs := by
  induction xs generalizing t n with
  | nil => simp [firstPassLoop, declaredLabels]
  | cons raw rest ih =>
    rw [declaredLabels_cons]
    rcases line_cases raw with ⟨hs, hi⟩ | ⟨hs, hl, hi⟩ | hi
    · rw [firstPassLoop_skip _ _ _ _ hs, ih]; simp [hs]
    · rw [firstPassLoop_label _ _ _ _ hs hl, ih, find_assign]
      by_cases hn : labelOf (strip raw) = name
      · simp [hs, hl, hn]
      · have hn2 : ¬ name = labelOf (strip raw) := fun e => hn e.symm
        simp [hs, hl, hn, hn2]
    · have hb := instruction_test hi
      rw [Bool.or_eq_false_iff] at hb
      rw [firstPassLoop_instruction _ _ _ _ hi, ih]; simp [hb.1, hb.2]

theorem firstPassLoop_find_of_not_declared (t : SymbolTable) (n : Nat) (xs : List Str)
    (name : Str) (h : name ∉ declaredLabels xs) :
    (firstPassLoop t n xs).find name = t.find name := by
  induction xs generalizing t n with
  | nil => simp [firstPassLoop]
  | cons raw rest ih =>
    rw [declaredLabels_cons, List.mem_append, not_or] at h
    rcases line_cases raw with ⟨hs, hi⟩ | ⟨hs, hl, hi⟩ | hi
    · rw [firstPassLoop_skip _ _ _ _ hs, ih _ _ h.2]
    · rw [firstPassLoop_label _ _ _ _ hs hl, ih _ _ h.2, find_assign]
      have hn : ¬ labelOf (strip raw) = name := by
        intro e
        apply h.1
        simp [hs, hl, e]
      rw [if_neg hn]
    · rw [firstPassLoop_instruction _ _ _ _ hi, ih _ _ h.2]

theorem handleAInstruction_present (a : Assembler) (symbol : Str) (v : Nat)
    (hsym : isdigit (front symbol) = false) (hv : a.symbolTable.find symbol = some v) :
    handleAInstruction a ('@' :: symbol) = some ('0' :: bitset 15 v, a) := by
  simp [handleAInstruction, hsym, hv]

theorem handleAInstruction_absent (a : Assembler) (symbol : Str)
    (hsym : isdigit (front symbol) = false) (hv : a.symbolTable.find symbol = none) :
    handleAInstruction a ('@' :: symbol)
      = some ('0' :: bitset 15 a.nextAvailableAddress,
          { symbolTable := a.symbolTable.assign symbol a.nextAvailableAddress,
            nextAvailableAddress := a.nextAvailableAddress + 1 }) := by
  simp [handleAInstruction, hsym, hv, find_assign]

/-- The three outcomes of the encoder of address lines when it returns. -/
theorem handleAInstruction_outcomes (a a1 : Assembler) (line word : Str)
    (h : handleAInstruction a line = some (word, a1)) :
    (isdigit (front (line.drop 1)) = true ∧ a1 = a) ∨
    (isdigit (front (line.drop 1)) = false ∧ a.symbolTable.find (line.drop 1) ≠ none ∧
      a1 = a) ∨
    (isdigit (front (line.drop 1)) = false ∧ a.symbolTable.find (line.drop 1) = none ∧
      a1 = { symbolTable := a.symbolTable.assign (line.drop 1) a.nextAvailableAddress,
             nextAvailableAddress := a.nextAvailableAddress + 1 }) := by
  unfold handleAInstruction at h
  split at h
  · exact absurd h (by simp)
  · simp only [] at h
    split at h
    · rename_i hd
      split at h
      · exact absurd h (by simp)
      · simp only [Option.some.injEq, Prod.mk.injEq] at h
        exact Or.inl ⟨hd, h.2.symm⟩
    · rename_i hd
      simp only [Option.some.injEq, Prod.mk.injEq] at h
      by_cases hf : a.symbolTable.find (line.drop 1) = none
      · rw [if_pos hf] at h
        exact Or.inr (Or.inr ⟨by simpa using hd, hf, h.2.symm⟩)
      · rw [if_neg hf] at h
        exact Or.inr (Or.inl ⟨by simpa using hd, hf, h.2.symm⟩)

theorem handleAInstruction_find (a a1 : Assembler) (line word name : Str) (v : Nat)
    (h : handleAInstruction a line = some (word, a1))
    (hv : a.symbolTable.find name = some v) : a1.symbolTable.find name = some v := by
  rcases handleAInstruction_outcomes a a1 line word h with ⟨-, e⟩ | ⟨-, -, e⟩ | ⟨-, hf, e⟩
  · rw [e]; exact hv
  · rw [e]; exact hv
  · rw [e]
    simp only [find_assign]
    have hne : ¬ line.drop 1 = name := by
      intro e2
      rw [e2, hv] at hf
      exact absurd hf (by simp)
    rw [if_neg hne]; exact hv

theorem secondPassLoop_find (a : Assembler) (output lines : List Str) (name : Str) (v : Nat)
    (hv : a.symbolTable.find name = some v) :
    (secondPassLoop a output lines).assembler.symbolTable.find name = some v := by
  induction lines generalizing a output with
  | nil => simpa [secondPassLoop] using hv
  | cons raw rest ih =>
    rcases secondPassLoop_cases a output raw rest with ⟨hi, e⟩ | ⟨hi, hat, hn, e⟩ |
        ⟨binary, a1, hi, hat, hs, e⟩ | ⟨hi, hat, e⟩
    · rw [e]; exact ih a output hv
    · rw [e]; exact hv
    · rw [e]; exact ih a1 _ (handleAInstruction_find a a1 _ binary name v hs hv)
    · rw [e]; exact ih a _ hv

theorem address_line_isInstruction (raw symbol : Str) (h : strip raw = '@' :: symbol) :
    isInstructionLine raw = true ∧ front (strip raw) = '@' := by
  rw [isInstructionLine, h]
  exact ⟨by simp [isSkipped, isLabel, front], rfl⟩

/-- The word written for a line, when the lines before it have not aborted the pass and
the encoder of address lines returns `word` on it. -/
theorem secondPassLoop_word_at (a a1 a2 : Assembler) (before after : List Str)
    (raw symbol word : Str) (href : strip raw = '@' :: symbol)
    (hreach : (secondPassLoop a [] before).aborted = false)
    (ha1 : (secondPassLoop a [] before).assembler = a1)
    (hword : handleAInstruction a1 ('@' :: symbol) = some (word, a2)) :
    (secondPassLoop a [] (before ++ raw :: after)).output[instructionCount before]?
      = some word := by
  obtain ⟨hi, hat⟩ := address_line_isInstruction raw symbol href
  have hlen := secondPassLoop_length a [] before hreach
  simp only [List.length_nil, Nat.zero_add] at hlen
  rw [secondPassLoop_append, if_neg (by simp [hreach]), ha1,
    secondPassLoop_address a1 _ raw after word a2 hi hat (by rw [href]; exact hword),
    (secondPassLoop_output a2 _ after).2.2, ← hlen]
  exact getElem?_append_singleton _ _ _

theorem find_append (t1 t2 : SymbolTable) (name : Str) :
    (t1 ++ t2).find name
      = match t1.find name with
        | some v => some v
        | none => t2.find name := by
  induction t1 with
  | nil => simp [SymbolTable.find]
  | cons p t1 ih =>
    obtain ⟨k, v⟩ := p
    rw [List.cons_append]
    by_cases hk : k = name
    · simp only [SymbolTable.find, if_pos hk]
    · simp only [SymbolTable.find, if_neg hk]
      exact ih

theorem find_numbered_of_mem (base : Nat) (vs : List Str) (name : Str) (h : name ∈ vs) :
    ∃ k, vs[k]? = some name ∧ (numbered base vs).find name = some (base + k) := by
  induction vs generalizing base with
  | nil => simp at h
  | cons v vs ih =>
    by_cases hv : v = name
    · exact ⟨0, by simp [hv], by simp only [numbered, SymbolTable.find, if_pos hv]; rfl⟩
    · have hm : name ∈ vs := by
        rcases List.mem_cons.1 h with e | e
        · exact absurd e.symm hv
        · exact e
      obtain ⟨k, hk, hf⟩ := ih (base + 1) hm
      refine ⟨k + 1, by simpa using hk, ?_⟩
      simp only [numbered, SymbolTable.find, if_neg hv, hf]
      rw [show base + 1 + k = base + (k + 1) by omega]

theorem find_numbered_of_not_mem (base : Nat) (vs : List Str) (name : Str) (h : name ∉ vs) :
    (numbered base vs).find name = none := by
  induction vs generalizing base with
  | nil => rfl
  | cons v vs ih =>
    rw [List.mem_cons, not_or] at h
    have hv : ¬ v = name := fun e => h.1 e.symm
    simp only [numbered, SymbolTable.find, if_neg hv]
    exact ih (base + 1) h.2

theorem numbered_append (base : Nat) (vs : List Str) (v : Str) :
    numbered base (vs ++ [v]) = numbered base vs ++ [(v, base + vs.length)] := by
  induction vs generalizing base with
  | nil => simp [numbered]
  | cons u vs ih =>
    rw [List.cons_append, numbered, numbered, ih, List.cons_append, List.length_cons,
      show base + 1 + vs.length = base + (vs.length + 1) by omega]

theorem foldl_addNew_extends (seen vs : List Str) :
    ∃ more, vs.foldl addNew seen = seen ++ more := by
  induction vs generalizing seen with
  | nil => exact ⟨[], by simp⟩
  | cons v vs ih =>
    obtain ⟨more, hm⟩ := ih (addNew seen v)
    by_cases hv : v ∈ seen
    · exact ⟨more, by rw [List.foldl_cons, hm]; simp [addNew, hv]⟩
    · exact ⟨v :: more, by rw [List.foldl_cons, hm]; simp [addNew, hv]⟩

theorem foldl_addNew_nodup (seen vs : List Str) (h : seen.Nodup) :
    (vs.foldl addNew seen).Nodup := by
  induction vs generalizing seen with
  | nil => simpa using h
  | cons v vs ih =>
    rw [List.foldl_cons]
    apply ih
    by_cases hv : v ∈ seen
    · simpa [addNew, hv] using h
    · simp only [addNew, if_neg hv]
      exact List.Nodup.append h (List.nodup_singleton v) (by simpa using hv)

theorem symbolicOperands_cons (raw : Str) (rest : List Str) :
    symbolicOperands (raw :: rest)
      = (if isInstructionLine raw = true ∧ front (strip raw) = '@' ∧
            isdigit (front ((strip raw).drop 1)) = false
          then [(strip raw).drop 1] else []) ++ symbolicOperands rest := by
  by_cases hi : isInstructionLine raw = true
  · by_cases hat : front (strip raw) = '@'
    · cases hd : isdigit (front ((strip raw).drop 1)) <;>
        simp [symbolicOperands, List.filter_cons, hi, hat, hd, -List.drop_one]
    · simp [symbolicOperands, List.filter_cons, hi, hat]
  · simp [symbolicOperands, List.filter_cons, hi]

theorem symbolicOperands_other (raw : Str) (rest : List Str)
    (h : ¬ (isInstructionLine raw = true ∧ front (strip raw) = '@' ∧
      isdigit (front ((strip raw).drop 1)) = false)) :
    symbolicOperands (raw :: rest) = symbolicOperands rest := by
  rw [symbolicOperands_cons, if_neg h]; rfl

theorem symbolicOperands_symbol (raw : Str) (rest : List Str)
    (hi : isInstructionLine raw = true) (hat : front (strip raw) = '@')
    (hd : isdigit (front ((strip raw).drop 1)) = false) :
    symbolicOperands (raw :: rest) = (strip raw).drop 1 :: symbolicOperands rest := by
  rw [symbolicOperands_cons, if_pos ⟨hi, hat, hd⟩]; rfl

theorem symbolicOperands_append (xs ys : List Str) :
    symbolicOperands (xs ++ ys) = symbolicOperands xs ++ symbolicOperands ys := by
  simp [symbolicOperands]

/-- What the loop of the second pass, when it is not aborted, does to a table `T` extended
by the variables seen so far: it adds the new variables of the lines, in the order of
their first appearance, with consecutive addresses. -/
theorem secondPassLoop_variables (T : SymbolTable) (fresh : Str → Bool)
    (hfresh : ∀ v, fresh v = true ↔ T.find v = none) (base : Nat) :
    ∀ (lines : List Str) (seen : List Str) (a : Assembler) (output : List Str),
      a.symbolTable = T ++ numbered base seen →
      a.nextAvailableAddress = base + seen.length →
      (secondPassLoop a output lines).aborted = false →
      (secondPassLoop a output lines).assembler.symbolTable
        = T ++ numbered base (((symbolicOperands lines).filter fresh).foldl addNew seen) ∧
      (secondPassLoop a output lines).assembler.nextAvailableAddress
        = base + (((symbolicOperands lines).filter fresh).foldl addNew seen).length := by
  intro lines
  induction lines with
  | nil =>
    intro seen a output ht hn _
    simpa [secondPassLoop, symbolicOperands] using ⟨ht, hn⟩
  | cons raw rest ih =>
    intro seen a output ht hn hab
    rcases secondPassLoop_cases a output raw rest with ⟨hi, e⟩ | ⟨hi, hat, hnone, e⟩ |
        ⟨binary, a1, hi, hat, hs, e⟩ | ⟨hi, hat, e⟩
    · rw [e] at hab ⊢
      rw [symbolicOperands_other raw rest (by simp [hi])]
      exact ih seen a output ht hn hab
    · rw [e] at hab; simp at hab
    · rw [e] at hab ⊢
      rcases handleAInstruction_outcomes a a1 _ binary hs with ⟨hd, ha⟩ | ⟨hd, hf, ha⟩ |
          ⟨hd, hf, ha⟩
      · subst ha
        rw [symbolicOperands_other raw rest (by simp [hd, -List.drop_one])]
        exact ih seen a1 _ ht hn hab
      · subst ha
        rw [symbolicOperands_symbol raw rest hi hat hd, List.filter_cons]
        by_cases hT : T.find ((strip raw).drop 1) = none
        · have hmem : (strip raw).drop 1 ∈ seen := by
            by_contra hnot
            apply hf
            rw [ht, find_append, hT]
            exact find_numbered_of_not_mem base seen _ hnot
          have hfr : fresh ((strip raw).drop 1) = true := (hfresh _).2 hT
          rw [if_pos hfr, List.foldl_cons, addNew, if_pos hmem]
          exact ih seen a1 _ ht hn hab
        · have hfr : ¬ fresh ((strip raw).drop 1) = true := fun hc => hT ((hfresh _).1 hc)
          rw [if_neg hfr]
          exact ih seen a1 _ ht hn hab
      · have hT : T.find ((strip raw).drop 1) = none := by
          rw [ht, find_append] at hf
          cases hc : T.find ((strip raw).drop 1) with
          | none => rfl
          | some v => rw [hc] at hf; exact absurd hf (by simp)
        have hmem : (strip raw).drop 1 ∉ seen := by
          intro hin
          obtain ⟨k, -, hk⟩ := find_numbered_of_mem base seen _ hin
          rw [ht, find_append, hT] at hf
          simp only [] at hf
          rw [hk] at hf
          exact absurd hf (by simp)
        have hfr : fresh ((strip raw).drop 1) = true := (hfresh _).2 hT
        have ht1 : a1.symbolTable = T ++ numbered base (seen ++ [(strip raw).drop 1]) := by
          rw [ha]
          simp only []
          rw [assign_absent _ _ _ hf, ht, numbered_append, hn, List.append_assoc]
        have hn1 : a1.nextAvailableAddress = base + (seen ++ [(strip raw).drop 1]).length := by
          rw [ha]
          simp only [List.length_append, List.length_singleton]
          omega
        rw [symbolicOperands_symbol raw rest hi hat hd, List.filter_cons, if_pos hfr,
          List.foldl_cons, addNew, if_neg hmem]
        exact ih _ a1 _ ht1 hn1 hab
    · rw [e] at hab ⊢
      rw [symbolicOperands_other raw rest (by simp [hat])]
      exact ih seen a _ ht hn hab

theorem construct_find_none (v : Str) :
    construct.symbolTable.find v = none ↔ v ∉ reservedNames := by
  have h : construct.symbolTable.map Prod.fst = reservedNames := by decide
  rw [← h, ← find_ne_none_iff]
  simp

theorem firstPass_find_none (lines : List Str) (v : Str) :
    (firstPass construct lines).symbolTable.find v = none
      ↔ v ∉ reservedNames ∧ v ∉ declaredLabels lines := by
  simp only [firstPass]
  rw [firstPassLoop_find_none, construct_find_none]

theorem getElem?_append_of_some (xs more : List Str) (k : Nat) (v : Str) (h : xs[k]? = some v) :
    (xs ++ more)[k]? = some v := by
  have hk : k < xs.length := by
    by_contra hc
    rw [List.getElem?_eq_none (by omega)] at h
    exact absurd h (by simp)
  rw [List.getElem?_append_left hk]
  exact h

/-- C2 (counterexample).  In the lines `@2147483648`, `@x` the operand `x` is the first
variable of the program, and `@x` is the second instruction line; the second pass is
aborted on the first line and writes no word for `@x`. -/
theorem variable_not_encoded :
    programVariables ["@2147483648".toList, "@x".toList] = ["x".toList] ∧
    (assemble construct ["@2147483648".toList, "@x".toList]).aborted = true ∧
    (assemble construct ["@2147483648".toList, "@x".toList]).output[
        instructionCount ["@2147483648".toList]]?
      ≠ some ('0' :: bitset 15 (16 + 0)) := by
  decide

/-- The word of a reference to a variable, in terms of the lines as `strip` leaves them: a
line left as `@v`, with `v` the entry `k` of the list of variables, that the second pass
reaches is written as `'0'` followed by the 15 bits of `16 + k`. -/
theorem variable_word (lines before after : List Str) (ref v : Str)
    (hsplit : lines = before ++ ref :: after) (href : strip ref = '@' :: v)
    (hsym : isdigit (front v) = false) (hres : v ∉ reservedNames)
    (hlab : v ∉ declaredLabels lines)
    (hreach : (secondPass (firstPass construct lines) before).aborted = false) :
    (programVariables lines).Nodup ∧
    ∃ k, (programVariables lines)[k]? = some v ∧
      (assemble construct lines).output[instructionCount before]?
        = some ('0' :: bitset 15 (16 + k)) ∧
      (bitset 15 (16 + k)).length = 15 ∧
      (16 + k ≤ 32767 → binaryValue (bitset 15 (16 + k)) = 16 + k) := by
  refine ⟨foldl_addNew_nodup [] _ List.nodup_nil, ?_⟩
  have hvalue : ∀ k, 16 + k ≤ 32767 → binaryValue (bitset 15 (16 + k)) = 16 + k := by
    intro k hk
    rw [binaryValue_bitset]
    exact Nat.mod_eq_of_lt (by omega)
  obtain ⟨hi, hat⟩ := address_line_isInstruction ref v href
  have hdrop : (strip ref).drop 1 = v := by rw [href]; rfl
  let fresh : Str → Bool :=
    fun u => decide (u ∉ reservedNames) && decide (u ∉ declaredLabels lines)
  have hfresh : ∀ u, fresh u = true ↔ (firstPass construct lines).symbolTable.find u = none := by
    intro u
    rw [firstPass_find_none]
    simp [fresh]
  have hT : (firstPass construct lines).symbolTable.find v = none :=
    (firstPass_find_none lines v).2 ⟨hres, hlab⟩
  have hfv : fresh v = true := (hfresh v).2 hT
  obtain ⟨htable, hnext⟩ := secondPassLoop_variables (firstPass construct lines).symbolTable
    fresh hfresh 16 before [] (firstPass construct lines) [] (by simp [numbered]) rfl hreach
  obtain ⟨more, hmore⟩ := foldl_addNew_extends
    (addNew (((symbolicOperands before).filter fresh).foldl addNew []) v)
    ((symbolicOperands after).filter fresh)
  have hvars : programVariables lines
      = addNew (((symbolicOperands before).filter fresh).foldl addNew []) v ++ more := by
    rw [← hmore, programVariables, firstOccurrences, hsplit, symbolicOperands_append,
      symbolicOperands_symbol ref after hi hat (by rw [hdrop]; exact hsym), hdrop,
      List.filter_append, List.filter_cons, if_pos (by rw [← hsplit]; exact hfv),
      List.foldl_append, List.foldl_cons, ← hsplit]
  by_cases hmem : v ∈ ((symbolicOperands before).filter fresh).foldl addNew []
  · obtain ⟨k, hk, hf⟩ := find_numbered_of_mem 16 _ v hmem
    have hfind : (secondPassLoop (firstPass construct lines) [] before).assembler.symbolTable.find v
        = some (16 + k) := by
      rw [htable, find_append, hT]
      exact hf
    refine ⟨k, ?_, ?_, bitset_length _ _, hvalue k⟩
    · rw [hvars, addNew, if_pos hmem]
      exact getElem?_append_of_some _ _ _ _ hk
    · have := secondPassLoop_word_at (firstPass construct lines) _ _ before after ref v _ href
        hreach rfl (handleAInstruction_present _ v _ hsym hfind)
      rw [← hsplit] at this
      exact this
  · have hfind : (secondPassLoop (firstPass construct lines) [] before).assembler.symbolTable.find v
        = none := by
      rw [htable, find_append, hT]
      exact find_numbered_of_not_mem 16 _ v hmem
    refine ⟨(((symbolicOperands before).filter fresh).foldl addNew []).length, ?_, ?_,
      bitset_length _ _, hvalue _⟩
    · rw [hvars, addNew, if_neg hmem]
      exact getElem?_append_singleton _ _ _
    · have := secondPassLoop_word_at (firstPass construct lines) _ _ before after ref v _ href
        hreach rfl (handleAInstruction_absent _ v hsym hfind)
      rw [← hsplit, hnext] at this
      exact this

/-! ## The end-to-end example -/

/-- C12.  From a freshly constructed assembler the six lines `@2`, `D=A`, `@3`, `D=D+A`,
`@0`, `M=D` are assembled without an abort into exactly six words; the 15 low bits of the
first word denote 2, and the fourth word is `"111"`, the computation field `0000010`, the
destination field `010` and the jump field `000`, that is `1110000010010000`. -/
theorem end_to_end_example :
    (assemble construct ["@2".toList, "D=A".toList, "@3".toList, "D=D+A".toList,
      "@0".toList, "M=D".toList]).aborted = false ∧
    (assemble construct ["@2".toList, "D=A".toList, "@3".toList, "D=D+A".toList,
      "@0".toList, "M=D".toList]).output.length = 6 ∧
    ((assemble construct ["@2".toList, "D=A".toList, "@3".toList, "D=D+A".toList,
      "@0".toList, "M=D".toList]).output[0]?.map (fun word => binaryValue (word.drop 1)))
      = some 2 ∧
    (assemble construct ["@2".toList, "D=A".toList, "@3".toList, "D=D+A".toList,
      "@0".toList, "M=D".toList]).output[3]?
      = some ("111".toList ++ "0000010".toList ++ "010".toList ++ "000".toList) ∧
    "111".toList ++ "0000010".toList ++ "010".toList ++ "000".toList
      = "1110000010010000".toList ∧
    compBin "D+A".toList = "0000010".toList := by
  decide

/-! ## White space -/

/-- C15.  On every raw line (with or without a comment marker) `strip` returns exactly
the characters of the line that are not white space, in their order; so the result holds
no white space character, and `strip (strip line) = strip line`. -/
theorem strip_whitespace (line : Str) :
    strip line = line.filter (fun c => !isspace c) ∧
    (∀ c ∈ strip line, isspace c = false) ∧
    strip (strip line) = strip line := by
  refine ⟨strip_eq_filter line, ?_, ?_⟩
  · intro c hc
    rw [strip_eq_filter, List.mem_filter] at hc
    simpa using hc.2
  · rw [strip_eq_filter (strip line), strip_eq_filter line, List.filter_filter]
    simp

/-! ## The width of a compute word -/

/-- C18.  For every compute line the string that `handleCInstruction` returns starts with
`"111"` and holds only `'0'` and `'1'`; it has exactly 16 characters if and only if the
three extracted fields are keys of their tables; a field that is not a key has the empty
string as its code, and the string is then shorter than 16 characters. -/
theorem compute_word_width (line : Str) :
    (handleCInstruction line).take 3 = "111".toList ∧
    IsBinary (handleCInstruction line) ∧
    ((handleCInstruction line).length = 16 ↔
      ((fields line).1 ∈ keys destTable ∧ (fields line).2.1 ∈ keys compTable ∧
        (fields line).2.2 ∈ keys jumpTable)) ∧
    ((fields line).1 ∉ keys destTable → destBin (fields line).1 = []) ∧
    ((fields line).2.1 ∉ keys compTable → compBin (fields line).2.1 = []) ∧
    ((fields line).2.2 ∉ keys jumpTable → jumpBin (fields line).2.2 = []) ∧
    (¬ ((fields line).1 ∈ keys destTable ∧ (fields line).2.1 ∈ keys compTable ∧
        (fields line).2.2 ∈ keys jumpTable) → (handleCInstruction line).length < 16) := by
  have hlen := handleCInstruction_length line
  refine ⟨by rw [handleCInstruction_eq]; rfl, handleCInstruction_isBinary line, ?_,
    tableAt_of_not_key _ _, tableAt_of_not_key _ _, tableAt_of_not_key _ _, ?_⟩
  · rw [hlen]
    constructor
    · intro h
      by_cases h1 : (fields line).1 ∈ keys destTable <;>
        by_cases h2 : (fields line).2.1 ∈ keys compTable <;>
        by_cases h3 : (fields line).2.2 ∈ keys jumpTable <;>
        simp only [h1, h2, h3, if_true, if_false] at h <;> first | exact ⟨h1, h2, h3⟩ | omega
    · rintro ⟨h1, h2, h3⟩
      rw [if_pos h1, if_pos h2, if_pos h3]
  · intro hnot
    rw [hlen]
    by_cases h1 : (fields line).1 ∈ keys destTable <;>
      by_cases h2 : (fields line).2.1 ∈ keys compTable <;>
      by_cases h3 : (fields line).2.2 ∈ keys jumpTable <;>
      simp only [h1, h2, h3, if_true, if_false] <;>
      first | omega | exact absurd ⟨h1, h2, h3⟩ hnot

theorem compute_word_width_witness :
    (handleCInstruction "D=D+2;JMP".toList).length < 16 :=
  (compute_word_width "D=D+2;JMP".toList).2.2.2.2.2.2 (by decide)

/-! ## The symmetry of the computation table -/

/-- C19.  For every key of the computation table that holds the letter `A` (these are the
ten keys `A`, `!A`, `-A`, `A+1`, `A-1`, `D+A`, `D-A`, `A-D`, `D&A`, `D|A`), the mnemonic
with `M` for `A` is a key as well, the code of the `A` key starts with `0`, and the code
of the `M` key is `1` followed by the other six characters of the code of the `A` key;
the code of every key that holds neither `A` nor `M` starts with `0`. -/
theorem computation_table_symmetry (p : Str × Str) (hp : p ∈ compTable) :
    ('A' ∈ p.1 →
      replaceAM p.1 ∈ keys compTable ∧ p.2.head? = some '0' ∧
      compBin (replaceAM p.1) = '1' :: p.2.drop 1 ∧ (p.2.drop 1).length = 6) ∧
    ('A' ∉ p.1 → 'M' ∉ p.1 → p.2.head? = some '0') ∧
    (keys compTable).filter (fun k => decide ('A' ∈ k))
      = ["A".toList, "!A".toList, "-A".toList, "A+1".toList, "A-1".toList, "D+A".toList,
         "D-A".toList, "A-D".toList, "D&A".toList, "D|A".toList] := by
  have h : ∀ q ∈ compTable,
      ('A' ∈ q.1 →
        replaceAM q.1 ∈ keys compTable ∧ q.2.head? = some '0' ∧
        compBin (replaceAM q.1) = '1' :: q.2.drop 1 ∧ (q.2.drop 1).length = 6) ∧
      ('A' ∉ q.1 → 'M' ∉ q.1 → q.2.head? = some '0') := by
    decide
  exact ⟨(h p hp).1, (h p hp).2, by decide⟩

theorem computation_table_symmetry_witness :
    compBin (replaceAM "D|A".toList) = '1' :: "0010101".toList.drop 1 :=
  ((computation_table_symmetry ("D|A".toList, "0010101".toList) (by decide)).1
    (by decide)).2.2.1

/-! ## The effect of the encoders on the assembler -/

/-- C17.  On an address-load line `@symbol`, `handleAInstruction` leaves the table and the
counter as they were when the operand starts with a digit (`stoi` may throw, which changes
nothing either) or is a key of the table.  When the operand is a symbol that is not a
key, it adds the one entry `symbol ↦ nextAvailableAddress`, changes the entry of no other
name, and increments the counter by 1.  A compute line leaves the assembler as it was, and
`handleCInstruction` is a function of the line alone. -/
theorem encoder_frame (a : Assembler) (symbol : Str) :
    (isdigit (front symbol) = true →
      handleAInstruction a ('@' :: symbol) = none ∨
      ∃ word, handleAInstruction a ('@' :: symbol) = some (word, a)) ∧
    (isdigit (front symbol) = false → a.symbolTable.find symbol ≠ none →
      ∃ word, handleAInstruction a ('@' :: symbol) = some (word, a)) ∧
    (isdigit (front symbol) = false → a.symbolTable.find symbol = none →
      ∃ word a1, handleAInstruction a ('@' :: symbol) = some (word, a1) ∧
        a1.symbolTable = a.symbolTable ++ [(symbol, a.nextAvailableAddress)] ∧
        a1.symbolTable.find symbol = some a.nextAvailableAddress ∧
        (∀ name, name ≠ symbol → a1.symbolTable.find name = a.symbolTable.find name) ∧
        a1.nextAvailableAddress = a.nextAvailableAddress + 1) ∧
    (∀ raw : Str, isInstructionLine raw = true → front (strip raw) ≠ '@' →
      secondPass a [raw]
        = { assembler := a, output := [handleCInstruction (strip raw)], aborted := false }) := by
  refine ⟨?_, ?_, ?_, ?_⟩
  · intro hd
    cases hr : handleAInstruction a ('@' :: symbol) with
    | none => exact Or.inl rfl
    | some p =>
      obtain ⟨word, a1⟩ := p
      rcases handleAInstruction_outcomes a a1 _ word hr with ⟨-, e⟩ | ⟨hd2, -⟩ | ⟨hd2, -⟩
      · exact Or.inr ⟨word, by rw [e]⟩
      · rw [show ('@' :: symbol).drop 1 = symbol from rfl, hd] at hd2
        exact absurd hd2 (by simp)
      · rw [show ('@' :: symbol).drop 1 = symbol from rfl, hd] at hd2
        exact absurd hd2 (by simp)
  · intro hd hf
    cases hv : a.symbolTable.find symbol with
    | none => exact absurd hv hf
    | some v => exact ⟨_, handleAInstruction_present a symbol v hd hv⟩
  · intro hd hf
    refine ⟨_, _, handleAInstruction_absent a symbol hd hf, ?_, ?_, ?_, rfl⟩
    · exact assign_absent _ _ _ hf
    · simp only [find_assign, if_true]
    · intro name hne
      simp only [find_assign]
      rw [if_neg (fun e => hne e.symm)]
  · intro raw hi hat
    rw [secondPass, secondPassLoop_compute a [] raw [] hi hat]
    rfl

theorem encoder_frame_witness :
    ∃ word a1, handleAInstruction construct ('@' :: "sum".toList) = some (word, a1) ∧
      a1.symbolTable = construct.symbolTable ++ [("sum".toList, construct.nextAvailableAddress)] ∧
      a1.symbolTable.find "sum".toList = some construct.nextAvailableAddress ∧
      (∀ name, name ≠ "sum".toList →
        a1.symbolTable.find name = construct.symbolTable.find name) ∧
      a1.nextAvailableAddress = construct.nextAvailableAddress + 1 :=
  (encoder_frame construct "sum".toList).2.2.1 (by decide) (by decide)

/-! ## Distinct codes -/

theorem handleCInstruction_keys (d c j : Str) (hd : d ∈ keys destTable)
    (hc : c ∈ keys compTable) (hj : j ∈ keys jumpTable) :
    handleCInstruction (composeLine d c j)
      = "111".toList ++ compBin c ++ destBin d ++ jumpBin j := by
  have hD : ∀ k ∈ keys destTable, ('=' ∉ k ∧ ';' ∉ k) ∧ k.length ≤ 3 := by decide
  have hC : ∀ k ∈ keys compTable, ('=' ∉ k ∧ ';' ∉ k) ∧ k.length ≤ 3 := by decide
  have hJ : ∀ k ∈ keys jumpTable, '=' ∉ k ∧ k.length ≤ 3 := by decide
  obtain ⟨hd1, hd2⟩ := hD d hd
  obtain ⟨hc1, hc2⟩ := hC c hc
  obtain ⟨hj1, hj2⟩ := hJ j hj
  rw [handleCInstruction_eq, fields_composeLine d c j hd1 hc1 hj1 (by omega)]

/-- C16.  The 28 keys of the computation table have 28 pairwise distinct codes of 7
characters, the 8 keys of the jump table and the 8 keys of the destination table have 8
pairwise distinct codes of 3 characters each; and two lines `[d=]c[;j]` made of keys that
`handleCInstruction` encodes as the same word are made of the same three keys. -/
theorem encoding_decodable (d c j d1 c1 j1 : Str)
    (hd : d ∈ keys destTable) (hc : c ∈ keys compTable) (hj : j ∈ keys jumpTable)
    (hd1 : d1 ∈ keys destTable) (hc1 : c1 ∈ keys compTable) (hj1 : j1 ∈ keys jumpTable) :
    (handleCInstruction (composeLine d c j) = handleCInstruction (composeLine d1 c1 j1) →
      d = d1 ∧ c = c1 ∧ j = j1) ∧
    (keys compTable).length = 28 ∧ (keys compTable).Nodup ∧
    (compTable.map Prod.snd).Nodup ∧ (∀ p ∈ compTable, p.2.length = 7) ∧
    (keys jumpTable).length = 8 ∧ (keys jumpTable).Nodup ∧
    (jumpTable.map Prod.snd).Nodup ∧ (∀ p ∈ jumpTable, p.2.length = 3) ∧
    (keys destTable).length = 8 ∧ (keys destTable).Nodup ∧
    (destTable.map Prod.snd).Nodup ∧ (∀ p ∈ destTable, p.2.length = 3) := by
  refine ⟨?_, rfl, by decide, by decide, by decide, rfl, by decide, by decide, by decide,
    rfl, by decide, by decide, by decide⟩
  intro h
  have iC : ∀ x ∈ keys compTable, ∀ y ∈ keys compTable, compBin x = compBin y → x = y := by
    decide
  have iD : ∀ x ∈ keys destTable, ∀ y ∈ keys destTable, destBin x = destBin y → x = y := by
    decide
  have iJ : ∀ x ∈ keys jumpTable, ∀ y ∈ keys jumpTable, jumpBin x = jumpBin y → x = y := by
    decide
  rw [handleCInstruction_keys d c j hd hc hj, handleCInstruction_keys d1 c1 j1 hd1 hc1 hj1,
    List.append_assoc, List.append_assoc, List.append_assoc, List.append_assoc] at h
  have h1 := List.append_cancel_left h
  have lc : (compBin c).length = (compBin c1).length := by
    rw [compBin_length, compBin_length, if_pos hc, if_pos hc1]
  obtain ⟨e1, h2⟩ := List.append_inj h1 lc
  have ld : (destBin d).length = (destBin d1).length := by
    rw [destBin_length, destBin_length, if_pos hd, if_pos hd1]
  obtain ⟨e2, e3⟩ := List.append_inj h2 ld
  exact ⟨iD d hd d1 hd1 e2, iC c hc c1 hc1 e1, iJ j hj j1 hj1 e3⟩

theorem encoding_decodable_witness :
    handleCInstruction (composeLine "D".toList "D+A".toList "JGT".toList)
      ≠ handleCInstruction (composeLine "D".toList "D+M".toList "JGT".toList) :=
  fun h => absurd ((encoding_decodable "D".toList "D+A".toList "JGT".toList "D".toList
    "D+M".toList "JGT".toList (by decide) (by decide) (by decide) (by decide) (by decide)
    (by decide)).1 h).2.1 (by decide)

/-! ## Addresses that stay -/

theorem not_mem_textBefore (c : Char) (line : Str) : c ∉ textBefore c line := by
  induction line with
  | nil => simp [textBefore]
  | cons x line ih =>
    by_cases hx : x = c
    · simp [textBefore, List.takeWhile_cons, hx]
    · have hx2 : ¬ c = x := fun e => hx e.symm
      simpa [textBefore, List.takeWhile_cons, hx, hx2] using ih

theorem split_first (c : Char) (line : Str) (h : c ∈ line) :
    line = textBefore c line ++ c :: textAfter c line := by
  induction line with
  | nil => simp at h
  | cons x line ih =>
    by_cases hx : x = c
    · simp [textBefore, textAfter, List.takeWhile_cons, List.dropWhile_cons, hx]
    · have hm : c ∈ line := by
        rcases List.mem_cons.1 h with e | e
        · exact absurd e.symm hx
        · exact e
      have := ih hm
      simp only [textBefore, textAfter] at this
      simp only [textBefore, textAfter, List.takeWhile_cons, List.dropWhile_cons, bne_iff_ne,
        ne_eq, hx, not_false_eq_true, decide_True, if_true, List.cons_append]
      rw [← this]

theorem textBefore_of_not_mem (c : Char) (line : Str) (h : c ∉ line) :
    textBefore c line = line := by
  induction line with
  | nil => rfl
  | cons x line ih =>
    rw [List.mem_cons, not_or] at h
    have hx : ¬ x = c := fun e => h.1 e.symm
    simp only [textBefore, List.takeWhile_cons, bne_iff_ne, ne_eq, hx, not_false_eq_true,
      decide_True, if_true]
    rw [show List.takeWhile (fun x => x != c) line = textBefore c line from rfl, ih h.2]

theorem textBefore_append_cons (c : Char) (pre post : Str) (h : c ∉ pre) :
    textBefore c (pre ++ c :: post) = pre ∧ textAfter c (pre ++ c :: post) = post := by
  induction pre with
  | nil => simp [textBefore, textAfter, List.takeWhile_cons, List.dropWhile_cons]
  | cons x pre ih =>
    rw [List.mem_cons, not_or] at h
    have hx : ¬ x = c := fun e => h.1 e.symm
    obtain ⟨i1, i2⟩ := ih h.2
    simp only [textBefore, textAfter] at i1 i2
    simp only [textBefore, textAfter, List.cons_append, List.takeWhile_cons,
      List.dropWhile_cons, bne_iff_ne, ne_eq, hx, not_false_eq_true, decide_True, if_true,
      i1, i2, and_self]

theorem fields_plain (line : Str) (h1 : '=' ∉ line) (h2 : ';' ∉ line)
    (hlen : line.length < 2 ^ 64) : fields line = ([], line, []) := by
  have hn : npos = 2 ^ 64 - 1 := rfl
  unfold fields
  simp only [find_of_not_mem _ _ h1, find_of_not_mem _ _ h2, ne_eq, not_true_eq_false,
    if_false]
  rw [substr_all _ _ (by omega)]

theorem fields_jump (comp jump : Str) (h1 : '=' ∉ comp ++ ';' :: jump) (h2 : ';' ∉ comp)
    (hlen : (comp ++ ';' :: jump).length < 2 ^ 64) :
    fields (comp ++ ';' :: jump) = ([], comp, jump) := by
  have hn : npos = 2 ^ 64 - 1 := rfl
  have hl : (comp ++ ';' :: jump).length = comp.length + jump.length + 1 := by
    simp; omega
  have e2 : find (comp ++ ';' :: jump) ';' = comp.length := find_append_cons _ _ _ h2
  have h3 : comp.length ≠ npos := by omega
  unfold fields
  simp only [find_of_not_mem _ _ h1, e2, ne_eq, not_true_eq_false, if_false, if_pos h3]
  rw [substr_zero_append, substr_append_cons _ _ _ _ (by omega)]

theorem fields_dest (dest comp : Str) (h1 : '=' ∉ dest) (h2 : ';' ∉ dest ++ '=' :: comp)
    (hlen : (dest ++ '=' :: comp).length < 2 ^ 64) :
    fields (dest ++ '=' :: comp) = (dest, comp, []) := by
  have hn : npos = 2 ^ 64 - 1 := rfl
  have hl : (dest ++ '=' :: comp).length = dest.length + comp.length + 1 := by
    simp; omega
  have e1 : find (dest ++ '=' :: comp) '=' = dest.length := find_append_cons _ _ _ h1
  have h3 : dest.length ≠ npos := by omega
  have h5 : (npos + 2 ^ 64 - dest.length - 1) % 2 ^ 64 = 2 ^ 64 - 2 - dest.length := by
    rw [hn, show 2 ^ 64 - 1 + 2 ^ 64 - dest.length - 1
      = (2 ^ 64 - 2 - dest.length) + 2 ^ 64 by omega, Nat.add_mod_right]
    exact Nat.mod_eq_of_lt (by omega)
  unfold fields
  simp only [e1, find_of_not_mem _ _ h2, ne_eq, not_true_eq_false, if_false, if_pos h3, h5]
  rw [substr_zero_append, substr_append_cons _ _ _ _ (by omega)]

theorem fields_dest_jump (dest comp jump : Str) (h1 : '=' ∉ dest)
    (h2 : ';' ∉ dest ++ '=' :: comp)
    (hlen : (dest ++ '=' :: (comp ++ ';' :: jump)).length < 2 ^ 64) :
    fields (dest ++ '=' :: (comp ++ ';' :: jump)) = (dest, comp, jump) := by
  have hn : npos = 2 ^ 64 - 1 := rfl
  have hlen2 : dest.length + comp.length + jump.length + 2 < 2 ^ 64 := by
    simp at hlen; omega
  have e1 : find (dest ++ '=' :: (comp ++ ';' :: jump)) '=' = dest.length :=
    find_append_cons _ _ _ h1
  have e2 : find (dest ++ '=' :: (comp ++ ';' :: jump)) ';' = (dest ++ '=' :: comp).length := by
    have := find_append_cons (dest ++ '=' :: comp) jump ';' h2
    simpa using this
  have hl : (dest ++ '=' :: comp).length = dest.length + comp.length + 1 := by
    simp; omega
  have h3 : dest.length ≠ npos := by omega
  have h4 : (dest ++ '=' :: comp).length ≠ npos := by omega
  have h5 : ((dest ++ '=' :: comp).length + 2 ^ 64 - dest.length - 1) % 2 ^ 64
      = comp.length := by
    rw [show (dest ++ '=' :: comp).length + 2 ^ 64 - dest.length - 1
      = comp.length + 2 ^ 64 by omega, Nat.add_mod_right]
    exact Nat.mod_eq_of_lt (by omega)
  have h6 : substr (dest ++ '=' :: (comp ++ ';' :: jump)) ((dest ++ '=' :: comp).length + 1)
      npos = jump := by
    have := substr_append_cons (dest ++ '=' :: comp) jump ';' npos (by omega)
    simpa using this
  unfold fields
  simp only [e1, e2, ne_eq, if_pos h3, if_pos h4, h5, h6]
  rw [substr_zero_append, substr_middle]

/-- The fields that `handleCInstruction` extracts are the fields of the specification, on
every line in which no `;` stands before the first `=`. -/
theorem fields_eq_spec (line : Str) (hlen : line.length < 2 ^ 64)
    (hsc : '=' ∈ line → ';' ∉ textBefore '=' line) :
    fields line = (specDest line, specComp line, specJump line) ∧
    line = specDest line ++ (if '=' ∈ line then ['='] else []) ++ specComp line
      ++ (if ';' ∈ line then [';'] else []) ++ specJump line := by
  by_cases heq : '=' ∈ line
  · obtain ⟨d, r, hline, hd⟩ : ∃ d r, line = d ++ '=' :: r ∧ '=' ∉ d :=
      ⟨_, _, split_first '=' line heq, not_mem_textBefore '=' line⟩
    subst hline
    obtain ⟨b1, a1⟩ := textBefore_append_cons '=' d r hd
    have hd2 : ';' ∉ d := by
      have := hsc heq
      rwa [b1] at this
    by_cases hsc2 : ';' ∈ r
    · obtain ⟨m, j, hr, hm⟩ : ∃ m j, r = m ++ ';' :: j ∧ ';' ∉ m :=
        ⟨_, _, split_first ';' r hsc2, not_mem_textBefore ';' r⟩
      subst hr
      have hpre : ';' ∉ d ++ '=' :: m := by simp [hd2, hm]
      obtain ⟨b2, -⟩ := textBefore_append_cons ';' m j hm
      have a3 : textAfter ';' (d ++ '=' :: (m ++ ';' :: j)) = j := by
        have := (textBefore_append_cons ';' (d ++ '=' :: m) j hpre).2
        simpa using this
      have hin : ';' ∈ d ++ '=' :: (m ++ ';' :: j) := by simp
      simp only [specDest, specComp, specJump, if_pos heq, if_pos hin, b1, a1, b2, a3]
      exact ⟨fields_dest_jump d m j hd hpre hlen, by simp⟩
    · have hnot : ';' ∉ d ++ '=' :: r := by simp [hd2, hsc2]
      simp only [specDest, specComp, specJump, if_pos heq, if_neg hnot, b1, a1,
        textBefore_of_not_mem ';' r hsc2]
      exact ⟨fields_dest d r hd hnot hlen, by simp⟩
  · by_cases hsc2 : ';' ∈ line
    · obtain ⟨m, j, hline, hm⟩ : ∃ m j, line = m ++ ';' :: j ∧ ';' ∉ m :=
        ⟨_, _, split_first ';' line hsc2, not_mem_textBefore ';' line⟩
      subst hline
      obtain ⟨b2, a2⟩ := textBefore_append_cons ';' m j hm
      simp only [specDest, specComp, specJump, if_neg heq, if_pos hsc2, b2, a2]
      exact ⟨fields_jump m j heq hm hlen, by simp⟩
    · simp only [specDest, specComp, specJump, if_neg heq, if_neg hsc2,
        textBefore_of_not_mem ';' line hsc2]
      exact ⟨fields_plain line heq hsc2 hlen, by simp⟩

/-- C14.  On every compute line in which no `;` stands before the first `=` (a
`std::string`, so shorter than `2 ^ 64` characters), `handleCInstruction` returns `"111"`
+ `compBin(comp)` + `destBin(dest)` + `jumpBin(jump)` where `dest` is the text before the
first `=` (empty without `=`), `jump` is the text after the first `;` (empty without `;`)
and `comp` is the text after the first `=` (from the start of the line without `=`) up to
the first `;` (to the end without `;`); the line is `dest`, `=` if present, `comp`, `;` if
present, `jump`. -/
theorem field_extraction (line : Str) (hlen : line.length < 2 ^ 64)
    (hsc : '=' ∈ line → ';' ∉ textBefore '=' line) :
    handleCInstruction line
      = "111".toList ++ compBin (specComp line) ++ destBin (specDest line)
          ++ jumpBin (specJump line) ∧
    fields line = (specDest line, specComp line, specJump line) ∧
    line = specDest line ++ (if '=' ∈ line then ['='] else []) ++ specComp line
      ++ (if ';' ∈ line then [';'] else []) ++ specJump line := by
  obtain ⟨hf, hl⟩ := fields_eq_spec line hlen hsc
  exact ⟨by rw [handleCInstruction_eq, hf], hf, hl⟩

theorem field_extraction_witness :
    handleCInstruction "MD=A-1;JNE".toList
      = "111".toList ++ compBin "A-1".toList ++ destBin "MD".toList ++ jumpBin "JNE".toList ∧
    fields "MD=A-1;JNE".toList = ("MD".toList, "A-1".toList, "JNE".toList) :=
  ⟨(field_extraction "MD=A-1;JNE".toList (by decide) (by decide)).1,
   (field_extraction "MD=A-1;JNE".toList (by decide) (by decide)).2.1⟩

/-! ## A second run of the assembler -/

theorem assign_keys_of_present (t : SymbolTable) (k : Str) (v : Nat)
    (h : t.find k ≠ none) : (t.assign k v).map Prod.fst = t.map Prod.fst := by
  induction t with
  | nil => exact absurd rfl h
  | cons p t ih =>
    obtain ⟨k0, v0⟩ := p
    by_cases h0 : k0 = k
    · simp only [SymbolTable.assign, if_pos h0, List.map_cons]
    · simp only [SymbolTable.find, if_neg h0] at h
      simp only [SymbolTable.assign, if_neg h0, List.map_cons, ih h]

theorem assign_keys_nodup (t : SymbolTable) (k : Str) (v : Nat)
    (h : (t.map Prod.fst).Nodup) : ((t.assign k v).map Prod.fst).Nodup := by
  by_cases hk : t.find k = none
  · rw [assign_absent t k v hk, List.map_append]
    have hnot : k ∉ t.map Prod.fst := by
      intro hm
      exact (find_ne_none_iff t k).2 hm hk
    exact List.Nodup.append h (List.nodup_singleton k) (by simpa using hnot)
  · rw [assign_keys_of_present t k v hk]
    exact h

theorem firstPassLoop_keys_nodup (t : SymbolTable) (n : Nat) (lines : List Str)
    (h : (t.map Prod.fst).Nodup) : ((firstPassLoop t n lines).map Prod.fst).Nodup := by
  induction lines generalizing t n with
  | nil => simpa [firstPassLoop] using h
  | cons raw rest ih =>
    rcases line_cases raw with ⟨hs, -⟩ | ⟨hs, hl, -⟩ | hi
    · rw [firstPassLoop_skip _ _ _ _ hs]; exact ih t n h
    · rw [firstPassLoop_label _ _ _ _ hs hl]; exact ih _ n (assign_keys_nodup t _ n h)
    · rw [firstPassLoop_instruction _ _ _ _ hi]; exact ih t _ h

theorem secondPassLoop_keys_nodup (a : Assembler) (output lines : List Str)
    (h : (a.symbolTable.map Prod.fst).Nodup) :
    ((secondPassLoop a output lines).assembler.symbolTable.map Prod.fst).Nodup := by
  induction lines generalizing a output with
  | nil => simpa [secondPassLoop] using h
  | cons raw rest ih =>
    rcases secondPassLoop_cases a output raw rest with ⟨-, e⟩ | ⟨-, -, -, e⟩ |
        ⟨binary, a1, -, -, hs, e⟩ | ⟨-, -, e⟩
    · rw [e]; exact ih a output h
    · rw [e]; exact h
    · rw [e]
      apply ih a1
      rcases handleAInstruction_outcomes a a1 _ binary hs with ⟨-, ha⟩ | ⟨-, -, ha⟩ |
          ⟨-, -, ha⟩
      · rw [ha]; exact h
      · rw [ha]; exact h
      · rw [ha]; exact assign_keys_nodup _ _ _ h
    · rw [e]; exact ih a _ h

/-- Two tables with the same keys in the same order, without repetition, and the same
address for every name are the same table. -/
theorem table_ext (t1 t2 : SymbolTable) (hkeys : t1.map Prod.fst = t2.map Prod.fst)
    (hnodup : (t1.map Prod.fst).Nodup) (hfind : ∀ name, t1.find name = t2.find name) :
    t1 = t2 := by
  induction t1 generalizing t2 with
  | nil =>
    cases t2 with
    | nil => rfl
    | cons q t2 => simp at hkeys
  | cons p t1 ih =>
    cases t2 with
    | nil => simp at hkeys
    | cons q t2 =>
      obtain ⟨k, v⟩ := p
      obtain ⟨k2, v2⟩ := q
      simp only [List.map_cons, List.cons.injEq] at hkeys
      obtain ⟨hk, hrest⟩ := hkeys
      subst hk
      simp only [List.map_cons, List.nodup_cons] at hnodup
      have hv : v = v2 := by
        have := hfind k
        simpa [SymbolTable.find] using this
      subst hv
      have htail : t1 = t2 := by
        apply ih t2 hrest hnodup.2
        intro name
        by_cases hn : k = name
        · subst hn
          have n1 : SymbolTable.find t1 k = none := by
            by_contra hc
            exact hnodup.1 ((find_ne_none_iff t1 k).1 hc)
          have n2 : SymbolTable.find t2 k = none := by
            by_contra hc
            exact hnodup.1 (by rw [hrest]; exact (find_ne_none_iff t2 k).1 hc)
          rw [n1, n2]
        · have := hfind name
          simpa [SymbolTable.find, hn] using this
      rw [htail]

/-- After the first pass the address of a declared label does not depend on the table
that the pass started from, and the address of any other name is the one it had. -/
theorem firstPassLoop_find_congr (t1 t2 : SymbolTable) (n : Nat) (lines : List Str)
    (name : Str) (h : name ∈ declaredLabels lines ∨ t1.find name = t2.find name) :
    (firstPassLoop t1 n lines).find name = (firstPassLoop t2 n lines).find name := by
  induction lines generalizing t1 t2 n with
  | nil =>
    rcases h with h | h
    · simp [declaredLabels] at h
    · simpa [firstPassLoop] using h
  | cons raw rest ih =>
    rw [declaredLabels_cons] at h
    rcases line_cases raw with ⟨hs, -⟩ | ⟨hs, hl, -⟩ | hi
    · rw [firstPassLoop_skip _ _ _ _ hs, firstPassLoop_skip _ _ _ _ hs]
      apply ih
      simpa [hs] using h
    · rw [firstPassLoop_label _ _ _ _ hs hl, firstPassLoop_label _ _ _ _ hs hl]
      apply ih
      by_cases hn : labelOf (strip raw) = name
      · right
        simp only [find_assign, if_pos hn]
      · rcases h with h | h
        · left
          have hn2 : ¬ name = labelOf (strip raw) := fun e => hn e.symm
          simpa [hs, hl, hn2] using h
        · right
          simp only [find_assign, if_neg hn]
          exact h
    · have hb := instruction_test hi
      rw [Bool.or_eq_false_iff] at hb
      rw [firstPassLoop_instruction _ _ _ _ hi, firstPassLoop_instruction _ _ _ _ hi]
      apply ih
      simpa [hb.1, hb.2] using h

theorem firstPassLoop_keys (t : SymbolTable) (n : Nat) (lines : List Str)
    (h : ∀ name ∈ declaredLabels lines, t.find name ≠ none) :
    (firstPassLoop t n lines).map Prod.fst = t.map Prod.fst := by
  induction lines generalizing t n with
  | nil => simp [firstPassLoop]
  | cons raw rest ih =>
    rcases line_cases raw with ⟨hs, -⟩ | ⟨hs, hl, -⟩ | hi
    · rw [firstPassLoop_skip _ _ _ _ hs]
      apply ih
      intro name hn
      apply h
      rw [declaredLabels_cons]
      exact List.mem_append_right _ hn
    · have hlab : t.find (labelOf (strip raw)) ≠ none := by
        apply h
        rw [declaredLabels_cons]
        simp [hs, hl]
      rw [firstPassLoop_label _ _ _ _ hs hl, ih, assign_keys_of_present _ _ _ hlab]
      intro name hn
      rw [find_assign]
      by_cases he : labelOf (strip raw) = name
      · rw [if_pos he]; simp
      · rw [if_neg he]
        apply h
        rw [declaredLabels_cons]
        exact List.mem_append_right _ hn
    · rw [firstPassLoop_instruction _ _ _ _ hi]
      apply ih
      intro name hn
      apply h
      rw [declaredLabels_cons]
      exact List.mem_append_right _ hn

/-- The first pass, run again on the table that a whole run has left, leaves the table as
it is. -/
theorem firstPass_again (a : Assembler) (lines : List Str)
    (h : (a.symbolTable.map Prod.fst).Nodup) :
    firstPass (assemble a lines).assembler lines = (assemble a lines).assembler := by
  have hpres : ∀ name v, (firstPass a lines).symbolTable.find name = some v →
      (assemble a lines).assembler.symbolTable.find name = some v :=
    fun name v hv => secondPassLoop_find (firstPass a lines) [] lines name v hv
  have hdeclared : ∀ name ∈ declaredLabels lines,
      ∃ v, (firstPass a lines).symbolTable.find name = some v := by
    intro name hn
    cases hv : (firstPass a lines).symbolTable.find name with
    | none =>
      simp only [firstPass] at hv
      exact absurd hn ((firstPassLoop_find_none _ _ _ _).1 hv).2
    | some v => exact ⟨v, rfl⟩
  have hnodup : ((assemble a lines).assembler.symbolTable.map Prod.fst).Nodup :=
    secondPassLoop_keys_nodup _ _ _ (firstPassLoop_keys_nodup _ _ _ h)
  have htable : firstPassLoop (assemble a lines).assembler.symbolTable 0 lines
      = (assemble a lines).assembler.symbolTable := by
    have hkeys := firstPassLoop_keys (assemble a lines).assembler.symbolTable 0 lines (by
      intro name hn
      obtain ⟨v, hv⟩ := hdeclared name hn
      rw [hpres name v hv]
      simp)
    apply table_ext _ _ hkeys (by rw [hkeys]; exact hnodup)
    intro name
    by_cases hn : name ∈ declaredLabels lines
    · obtain ⟨v, hv⟩ := hdeclared name hn
      rw [firstPassLoop_find_congr _ a.symbolTable 0 lines name (Or.inl hn), hpres name v hv]
      exact hv
    · exact firstPassLoop_find_of_not_declared _ _ _ _ hn
  cases hr : (assemble a lines).assembler with
  | mk table next =>
    rw [hr] at htable
    simp only [firstPass] at htable ⊢
    rw [htable]

theorem handleAInstruction_none (a a1 : Assembler) (line : Str)
    (h : handleAInstruction a line = none) : handleAInstruction a1 line = none := by
  by_cases hl : line = []
  · simp [handleAInstruction, hl]
  · by_cases hd : isdigit (front (line.drop 1)) = true
    · cases hs : stoi (line.drop 1) with
      | none => simp [handleAInstruction, hl, hd, hs, -List.drop_one]
      | some v => simp [handleAInstruction, hl, hd, hs, -List.drop_one] at h
    · simp [handleAInstruction, hl, hd, -List.drop_one] at h

theorem handleAInstruction_literal (a a1 a2 : Assembler) (line word : Str)
    (hd : isdigit (front (line.drop 1)) = true)
    (h : handleAInstruction a line = some (word, a1)) :
    handleAInstruction a2 line = some (word, a2) := by
  by_cases hl : line = []
  · simp [handleAInstruction, hl] at h
  · cases hs : stoi (line.drop 1) with
    | none => simp [handleAInstruction, hl, hd, hs, -List.drop_one] at h
    | some v =>
      simp only [handleAInstruction, if_neg hl, hd, if_true, hs, Option.some.injEq,
        Prod.mk.injEq] at h ⊢
      exact ⟨h.1, trivial⟩

theorem handleAInstruction_symbol (a a1 : Assembler) (symbol word : Str)
    (hd : isdigit (front symbol) = false)
    (h : handleAInstruction a ('@' :: symbol) = some (word, a1)) :
    ∃ v, a1.symbolTable.find symbol = some v ∧ word = '0' :: bitset 15 v := by
  cases hv : a.symbolTable.find symbol with
  | none =>
    rw [handleAInstruction_absent a symbol hd hv] at h
    simp only [Option.some.injEq, Prod.mk.injEq] at h
    refine ⟨a.nextAvailableAddress, ?_, h.1.symm⟩
    rw [← h.2]
    simp only [find_assign, if_true]
  | some v =>
    rw [handleAInstruction_present a symbol v hd hv] at h
    simp only [Option.some.injEq, Prod.mk.injEq] at h
    exact ⟨v, by rw [← h.2]; exact hv, h.1.symm⟩

theorem line_eq_at (line : Str) (h : front line = '@') : line = '@' :: line.drop 1 := by
  cases line with
  | nil => exact absurd h (by decide)
  | cons c rest =>
    have hc : c = '@' := h
    rw [hc]; rfl

/-- The second pass run on an assembler `F` that knows every address that a run from `a`
ends with: it writes the words of the run from `a`, aborts where that run aborts, and
leaves `F` as it is. -/
theorem secondPassLoop_replay (F : Assembler) :
    ∀ (lines : List Str) (a : Assembler) (outF : List Str),
      (∀ name v, (secondPassLoop a [] lines).assembler.symbolTable.find name = some v →
        F.symbolTable.find name = some v) →
      secondPassLoop F outF lines
        = { assembler := F, output := outF ++ (secondPassLoop a [] lines).output,
            aborted := (secondPassLoop a [] lines).aborted } := by
  intro lines
  induction lines with
  | nil => intro a outF _; simp [secondPassLoop]
  | cons raw rest ih =>
    intro a outF hF
    rcases secondPassLoop_cases a [] raw rest with ⟨hi, e⟩ | ⟨hi, hat, hnone, e⟩ |
        ⟨binary, a1, hi, hat, hs, e⟩ | ⟨hi, hat, e⟩
    · rw [e] at hF ⊢
      rw [secondPassLoop_skip F outF raw rest hi]
      exact ih a outF hF
    · rw [e, secondPassLoop_abort F outF raw rest hi hat
        (handleAInstruction_none a F _ hnone)]
      simp
    · rw [e] at hF ⊢
      obtain ⟨o1, o2, o3⟩ := secondPassLoop_output a1 ([] ++ [binary]) rest
      rw [o1] at hF
      have hword : handleAInstruction F (strip raw) = some (binary, F) := by
        cases hd : isdigit (front ((strip raw).drop 1)) with
        | true => exact handleAInstruction_literal a a1 F _ binary hd hs
        | false =>
          rw [line_eq_at (strip raw) hat] at hs ⊢
          obtain ⟨v, hv, hw⟩ := handleAInstruction_symbol a a1 _ binary hd hs
          rw [hw]
          exact handleAInstruction_present F _ v hd
            (hF _ v (secondPassLoop_find a1 [] rest _ v hv))
      rw [secondPassLoop_address F outF raw rest binary F hi hat hword, ih a1 _ hF, o2, o3]
      simp
    · rw [e] at hF ⊢
      obtain ⟨o1, o2, o3⟩ := secondPassLoop_output a ([] ++ [handleCInstruction (strip raw)]) rest
      rw [o1] at hF
      rw [secondPassLoop_compute F outF raw rest hi hat, ih a _ hF, o2, o3]
      simp

theorem assemble_again (a : Assembler) (lines : List Str)
    (h : (a.symbolTable.map Prod.fst).Nodup) :
    assemble (assemble a lines).assembler lines = assemble a lines := by
  have h1 : assemble (assemble a lines).assembler lines
      = secondPassLoop (assemble a lines).assembler [] lines := by
    rw [assemble, firstPass_again a lines h]; rfl
  rw [h1, secondPassLoop_replay (assemble a lines).assembler lines (firstPass a lines) []
    (fun _ _ hv => hv)]
  simp only [List.nil_append]
  rfl

/-- C13.  A second call of `assemble` on the same object and the same lines, that is a run
from the table and the counter that the first run from a freshly constructed assembler has
left, writes the same words as the first run (and aborts where the first run aborted) and
leaves the table and the counter as the first run left them. -/
theorem rerun_idempotent (lines : List Str) :
    assemble (assemble construct lines).assembler lines = assemble construct lines :=
  assemble_again construct lines (by decide)

/-! ## Sources without a comment after text

On a line that holds a comment after other text the normal form of `strip` is not the one
of the specification.  The statements of this section are about sources without such
lines, and their notions are the ones of the specification: they are taken on the lines
with their comments cut off. -/

theorem beforeComment_split (raw : Str) :
    ∃ tail, raw = beforeComment raw ++ tail ∧ (tail = [] ∨ ∃ r, tail = '/' :: '/' :: r) := by
  induction raw with
  | nil => exact ⟨[], rfl, Or.inl rfl⟩
  | cons c rest ih =>
    by_cases hc : c = '/' ∧ rest.head? = some '/'
    · obtain ⟨h1, h2⟩ := hc
      cases rest with
      | nil => simp at h2
      | cons d rest2 =>
        simp only [List.head?_cons, Option.some.injEq] at h2
        subst h1; subst h2
        exact ⟨'/' :: '/' :: rest2, by simp [beforeComment], Or.inr ⟨rest2, rfl⟩⟩
    · obtain ⟨tail, h1, h2⟩ := ih
      refine ⟨tail, ?_, h2⟩
      rw [beforeComment, if_neg hc, List.cons_append, ← h1]

theorem strip_append (xs ys : Str) : strip (xs ++ ys) = strip xs ++ strip ys := by
  simp [strip_eq_filter]

/-- On a line without a comment after text the normal form of `strip` is the one of the
specification, or the line is skipped by both passes and empty for the specification. -/
theorem strip_agrees (raw : Str) (h : noTrailingComment raw = true) :
    strip raw = specStrip raw ∨ (isSkipped (strip raw) = true ∧ specStrip raw = []) := by
  simp only [noTrailingComment, Bool.or_eq_true, decide_eq_true_eq, List.isEmpty_iff] at h
  rcases h with h | h
  · left
    rw [specStrip, h]
  · right
    refine ⟨?_, h⟩
    obtain ⟨tail, h1, h2⟩ := beforeComment_split raw
    have hs : strip raw = strip tail := by
      conv_lhs => rw [h1]
      rw [strip_append]
      rw [show strip (beforeComment raw) = specStrip raw from rfl, h]
      rfl
    rw [hs]
    rcases h2 with h2 | ⟨r, h2⟩
    · rw [h2]; rfl
    · rw [h2, strip_eq_filter]
      simp [isSkipped, front, List.filter_cons, isspace]

theorem isInstructionLine_congr (x y : Str) (h : strip x = strip y) :
    isInstructionLine x = isInstructionLine y := by
  simp only [isInstructionLine, h]

theorem line_agrees (raw : Str) (h : noTrailingComment raw = true) :
    strip (beforeComment raw) = strip raw ∨
    (isSkipped (strip raw) = true ∧ isSkipped (strip (beforeComment raw)) = true) := by
  rcases strip_agrees raw h with e | ⟨e1, e2⟩
  · exact Or.inl e.symm
  · refine Or.inr ⟨e1, ?_⟩
    rw [show strip (beforeComment raw) = specStrip raw from rfl, e2]
    rfl

theorem not_instruction_of_skipped (raw : Str) (h : isSkipped (strip raw) = true) :
    isInstructionLine raw = false := by
  simp [isInstructionLine, h]

theorem isInstructionLine_beforeComment (raw : Str) (h : noTrailingComment raw = true) :
    isInstructionLine (beforeComment raw) = isInstructionLine raw := by
  rcases line_agrees raw h with e | ⟨e1, e2⟩
  · exact isInstructionLine_congr _ _ e
  · rw [not_instruction_of_skipped raw e1, not_instruction_of_skipped _ e2]

theorem strip_of_specStrip (raw : Str) (h : noTrailingComment raw = true)
    (hne : specStrip raw ≠ []) : strip raw = specStrip raw := by
  rcases strip_agrees raw h with e | ⟨-, e2⟩
  · exact e
  · exact absurd e2 hne

theorem instructionCount_uncommented (lines : List Str)
    (h : ∀ raw ∈ lines, noTrailingComment raw = true) :
    instructionCount (uncommented lines) = instructionCount lines := by
  induction lines with
  | nil => rfl
  | cons raw rest ih =>
    rw [uncommented, List.map_cons, instructionCount_cons, instructionCount_cons,
      isInstructionLine_beforeComment raw (h raw (List.mem_cons_self _ _))]
    rw [show List.map beforeComment rest = uncommented rest from rfl,
      ih (fun r hr => h r (List.mem_cons_of_mem _ hr))]

theorem declaredLabels_uncommented (lines : List Str)
    (h : ∀ raw ∈ lines, noTrailingComment raw = true) :
    declaredLabels (uncommented lines) = declaredLabels lines := by
  induction lines with
  | nil => rfl
  | cons raw rest ih =>
    rw [uncommented, List.map_cons, declaredLabels_cons, declaredLabels_cons,
      show List.map beforeComment rest = uncommented rest from rfl,
      ih (fun r hr => h r (List.mem_cons_of_mem _ hr))]
    rcases line_agrees raw (h raw (List.mem_cons_self _ _)) with e | ⟨e1, e2⟩
    · rw [e]
    · simp [e1, e2]

theorem symbolicOperands_uncommented (lines : List Str)
    (h : ∀ raw ∈ lines, noTrailingComment raw = true) :
    symbolicOperands (uncommented lines) = symbolicOperands lines := by
  induction lines with
  | nil => rfl
  | cons raw rest ih =>
    rw [uncommented, List.map_cons, symbolicOperands_cons, symbolicOperands_cons,
      show List.map beforeComment rest = uncommented rest from rfl,
      ih (fun r hr => h r (List.mem_cons_of_mem _ hr)),
      isInstructionLine_beforeComment raw (h raw (List.mem_cons_self _ _))]
    rcases line_agrees raw (h raw (List.mem_cons_self _ _)) with e | ⟨e1, -⟩
    · rw [e]
    · simp [not_instruction_of_skipped raw e1]

theorem programVariables_uncommented (lines : List Str)
    (h : ∀ raw ∈ lines, noTrailingComment raw = true) :
    programVariables (uncommented lines) = programVariables lines := by
  rw [programVariables, programVariables, symbolicOperands_uncommented lines h,
    declaredLabels_uncommented lines h]

theorem strip_of_specStrip_eq (raw line : Str) (h : noTrailingComment raw = true)
    (hne : line ≠ []) (hs : specStrip raw = line) : strip raw = line := by
  rw [strip_of_specStrip raw h (by rw [hs]; exact hne), hs]

/-- C2 (amended).  In a source without a comment after text on any line, let `v0, v1, ...`
be the variables of the program: the distinct symbolic operands that are neither reserved
names nor declared labels, in the order of their first appearance.  Every line `@v` with
`v` the variable `vk`, first occurrence or later, that the second pass reaches (the pass
is not aborted on a line before it) is encoded as `'0'` followed by the 15-bit binary of
`16 + k`; the list of variables has no repetition, so `k` is determined by `v`. -/
theorem variable_allocation (lines before after : List Str) (ref v : Str)
    (hcomment : ∀ raw ∈ lines, noTrailingComment raw = true)
    (hsplit : lines = before ++ ref :: after) (href : specStrip ref = '@' :: v)
    (hsym : isdigit (front v) = false) (hres : v ∉ reservedNames)
    (hlab : v ∉ declaredLabels (uncommented lines))
    (hreach : (secondPass (firstPass construct lines) before).aborted = false) :
    (programVariables (uncommented lines)).Nodup ∧
    ∃ k, (programVariables (uncommented lines))[k]? = some v ∧
      (assemble construct lines).output[instructionCount (uncommented before)]?
        = some ('0' :: bitset 15 (16 + k)) ∧
      (bitset 15 (16 + k)).length = 15 ∧
      (16 + k ≤ 32767 → binaryValue (bitset 15 (16 + k)) = 16 + k) := by
  have hbefore : ∀ raw ∈ before, noTrailingComment raw = true := by
    intro raw hr
    apply hcomment raw
    rw [hsplit]
    exact List.mem_append_left _ hr
  have hrefc : noTrailingComment ref = true := by
    apply hcomment ref
    rw [hsplit]
    simp
  have href1 : strip ref = '@' :: v := strip_of_specStrip_eq ref _ hrefc (by simp) href
  rw [declaredLabels_uncommented lines hcomment] at hlab
  rw [programVariables_uncommented lines hcomment, instructionCount_uncommented before hbefore]
  exact variable_word lines before after ref v hsplit href1 hsym hres hlab hreach

theorem variable_allocation_witness :
    ∃ k, (programVariables (uncommented ["// sum".toList, "@i".toList, "@sum".toList,
        "M=D".toList, "@i".toList]))[k]? = some "i".toList ∧
      (assemble construct ["// sum".toList, "@i".toList, "@sum".toList, "M=D".toList,
        "@i".toList]).output[instructionCount (uncommented ["// sum".toList, "@i".toList,
          "@sum".toList, "M=D".toList])]?
        = some ('0' :: bitset 15 (16 + k)) ∧
      (bitset 15 (16 + k)).length = 15 ∧
      (16 + k ≤ 32767 → binaryValue (bitset 15 (16 + k)) = 16 + k) :=
  (variable_allocation ["// sum".toList, "@i".toList, "@sum".toList, "M=D".toList,
      "@i".toList] ["// sum".toList, "@i".toList, "@sum".toList, "M=D".toList] []
    "@i".toList "i".toList (by decide) rfl (by decide) (by decide) (by decide) (by decide)
    (by decide)).2

end HackAssembler
